import Mathlib

/-!
# Verification of the binance-trader core against its specification

This file shallowly embeds the functional core of the `iamramtin/binance-trader`
Go repository in Lean 4 and proves (or refutes) the frozen claims about it.

Embedding conventions:
* Go `float64` arithmetic is modelled over `ℚ` (exact real arithmetic); the
  concrete inputs appearing in the claims were checked by hand to behave
  identically under IEEE-754 double precision and exact rational arithmetic.
* Go maps are modelled as association lists with replace-on-insert semantics;
  the shared `*OrderState` pointers of the order registry are modelled with an
  explicit reference heap so that in-place mutation through one map is visible
  through the other, exactly as in the Go code.
* Goroutines/locks are modelled only where a claim depends on them: the
  market maker's mutex is an explicit `muLocked` flag and an operation that
  would block forever on `Lock()` returns `none`.
* Fallible Go functions returning `(T, error)` become `Except String T` (or a
  pair when the partial state matters).
-/

namespace BinanceTrader

set_option maxRecDepth 8000

/-! ## Association lists: the model of Go maps

`lookupA` finds the first binding, `insertA` replaces the first binding (or
appends), `eraseA` removes every binding of the key (Go maps hold at most one).
-/

instance {ε α : Type} [DecidableEq ε] [DecidableEq α] : DecidableEq (Except ε α) :=
  fun x y =>
    match x, y with
    | Except.error a, Except.error b =>
      if h : a = b then Decidable.isTrue (by rw [h])
      else Decidable.isFalse (by intro hc; cases hc; exact h rfl)
    | Except.error _, Except.ok _ => Decidable.isFalse (by intro hc; cases hc)
    | Except.ok _, Except.error _ => Decidable.isFalse (by intro hc; cases hc)
    | Except.ok a, Except.ok b =>
      if h : a = b then Decidable.isTrue (by rw [h])
      else Decidable.isFalse (by intro hc; cases hc; exact h rfl)

def lookupA {κ ν : Type} [DecidableEq κ] : List (κ × ν) → κ → Option ν
  | [], _ => none
  | (k', v) :: t, k => if k' = k then some v else lookupA t k

def insertA {κ ν : Type} [DecidableEq κ] : List (κ × ν) → κ → ν → List (κ × ν)
  | [], k, v => [(k, v)]
  | (k', v') :: t, k, v =>
    if k' = k then (k, v) :: t else (k', v') :: insertA t k v

def eraseA {κ ν : Type} [DecidableEq κ] : List (κ × ν) → κ → List (κ × ν)
  | [], _ => []
  | (k', v') :: t, k => if k' = k then eraseA t k else (k', v') :: eraseA t k

/-! ## Exact model of `float64` values

Go's `float64` values are modelled exactly, as integer-numerator /
natural-denominator pairs (not necessarily reduced). Mathlib's `ℚ` is not
used in the computational pipeline because its arithmetic is `irreducible`;
`GoFloat.toRat` interprets a value in `ℚ` for the semantic theorems. The
concrete inputs appearing in the claims were checked by hand to behave
identically under IEEE-754 binary64 and exact arithmetic. Comparisons are by
cross-multiplication, i.e. by value, exactly as `float64` comparison.
-/

structure GoFloat where
  num : Int
  den : ℕ
  deriving Repr, DecidableEq

/-- Well-formed value: positive denominator. Every `GoFloat` built by the
operations below from well-formed inputs is well-formed. -/
def GoFloat.WF (x : GoFloat) : Prop := 0 < x.den

/-- The rational value of a `GoFloat`. -/
def GoFloat.toRat (x : GoFloat) : ℚ := (x.num : ℚ) / (x.den : ℚ)

def GoFloat.add (x y : GoFloat) : GoFloat :=
  ⟨x.num * y.den + y.num * x.den, x.den * y.den⟩

def GoFloat.sub (x y : GoFloat) : GoFloat :=
  ⟨x.num * y.den - y.num * x.den, x.den * y.den⟩

def GoFloat.mul (x y : GoFloat) : GoFloat :=
  ⟨x.num * y.num, x.den * y.den⟩

/-- Exact division. Division by zero yields 0 here; Go produces `±Inf`/`NaN`
instead, but the claims only exercise nonzero (positive) divisors. -/
def GoFloat.div (x y : GoFloat) : GoFloat :=
  if y.num = 0 then ⟨0, 1⟩
  else ⟨x.num * y.den * y.num.sign, x.den * y.num.natAbs⟩

def GoFloat.neg (x : GoFloat) : GoFloat := ⟨-x.num, x.den⟩

def GoFloat.floor (x : GoFloat) : Int := x.num.fdiv x.den

/-- Value comparison `x < y` (cross-multiplication). -/
def GoFloat.blt (x y : GoFloat) : Bool := decide (x.num * y.den < y.num * x.den)

/-! ## Decimal parsing and formatting (`strconv.ParseFloat`, `fmt.Sprintf`)

`parseGoFloat` models `strconv.ParseFloat` on its decimal forms (optional
sign, digits, optional fraction, optional exponent; `Inf`/`NaN`/hex floats
are out of scope of the claims), except that the result is exact rather than
the nearest binary64 value. `formatFixed` models `fmt.Sprintf` with a `%.Nf`
verb (Go rounds an exactly-represented tie to even). `goFormatG` models
`fmt.Sprintf("%g", x)` for finite-decimal values: shortest digits, switching
to scientific representation with a two-digit exponent when the decimal
exponent is below -4 (or at least 6).
-/

def digitVal (c : Char) : ℕ := c.toNat - 48

def digitChar (d : ℕ) : Char := Char.ofNat (48 + d)

def digitsToNat (l : List Char) : ℕ := l.foldl (fun a c => 10 * a + digitVal c) 0

def qpow10 (e : Int) : GoFloat :=
  if 0 ≤ e then ⟨(10 : ℕ) ^ e.toNat, 1⟩ else ⟨1, (10 : ℕ) ^ (-e).toNat⟩

/-- Model of `strconv.ParseFloat(s, 64)` on decimal forms. The mantissa
`ip.fp` denotes `(ip * 10^len(fp) + fp) / 10^len(fp)`. -/
def parseGoFloat (s : String) : Option GoFloat :=
  let cs := s.data
  let sgncs : Int × List Char :=
    match cs with
    | [] => (1, [])
    | c :: t => if c = '-' then (-1, t) else if c = '+' then (1, t) else (1, cs)
  let (ip, cs₂) := sgncs.2.span Char.isDigit
  let fpcs : List Char × List Char :=
    match cs₂ with
    | c :: t => if c = '.' then t.span Char.isDigit else ([], cs₂)
    | [] => ([], [])
  let fp := fpcs.1
  if ip.isEmpty && fp.isEmpty then none
  else
    let mant : GoFloat :=
      ⟨sgncs.1 * (digitsToNat ip * 10 ^ fp.length + digitsToNat fp : ℕ), 10 ^ fp.length⟩
    match fpcs.2 with
    | [] => some mant
    | c :: t =>
      if c = 'e' ∨ c = 'E' then
        let esgnt : Int × List Char :=
          match t with
          | [] => (1, [])
          | c' :: t' => if c' = '-' then (-1, t') else if c' = '+' then (1, t') else (1, t)
        let (ed, rest) := esgnt.2.span Char.isDigit
        if ed.isEmpty || ¬ rest.isEmpty then none
        else some (mant.mul (qpow10 (esgnt.1 * (digitsToNat ed : ℕ))))
      else none

/-- Little-endian base-10 digits, recursion bounded by a fuel argument so
that it stays structural (and hence kernel-evaluable). `fuel = n` always
suffices. -/
def natDigitsRev : ℕ → ℕ → List ℕ
  | 0, _ => []
  | _, 0 => []
  | f + 1, n + 1 => ((n + 1) % 10) :: natDigitsRev f ((n + 1) / 10)

/-- Big-endian decimal digits of a natural number (at least one digit). -/
def natDigitsStr (n : ℕ) : List Char :=
  if n = 0 then ['0'] else (natDigitsRev n n).reverse.map digitChar

def padLeftZeros (n : ℕ) (cs : List Char) : List Char :=
  List.replicate (n - cs.length) '0' ++ cs

/-- Number of characters after the first `'.'` (0 when there is none): the
quantity `len(parts[1])` computed by `FormatPrice` via `strings.Split`. -/
def fracDigitCount (s : String) : ℕ :=
  ((s.data.dropWhile fun c => c ≠ '.').drop 1).length

/-- Round to the nearest integer, an exact tie going to the even neighbour:
the rounding Go's `strconv` applies when formatting an exactly representable
value with a fixed number of decimals. -/
def roundHalfEven (q : GoFloat) : Int :=
  let f := q.floor
  let r := q.sub ⟨f, 1⟩
  if r.blt ⟨1, 2⟩ then f
  else if GoFloat.blt ⟨1, 2⟩ r then f + 1
  else if f % 2 = 0 then f else f + 1

/-- `math.Round`: round to the nearest integer, ties away from zero (Go
branches on `x >= 0`; branching on `x < 0` below is the same test). -/
def mathRound (x : GoFloat) : Int :=
  if x.blt ⟨0, 1⟩ then -((x.neg.add ⟨1, 2⟩).floor) else (x.add ⟨1, 2⟩).floor

/-- Model of `fmt.Sprintf("%.<n>f", x)` on an exact value. -/
def formatFixed (x : GoFloat) (n : ℕ) : String :=
  let r := roundHalfEven (x.mul ⟨(10 : ℕ) ^ n, 1⟩)
  let a := r.natAbs
  String.mk ((if x.blt ⟨0, 1⟩ then ['-'] else []) ++ natDigitsStr (a / 10 ^ n) ++
    (if n = 0 then [] else '.' :: padLeftZeros n (natDigitsStr (a % 10 ^ n))))

/-- Fuel-bounded multiplicity counter (structural recursion on the fuel). -/
def factorCountAux (p : ℕ) : ℕ → ℕ → ℕ
  | 0, _ => 0
  | f + 1, n =>
    if 2 ≤ p ∧ 1 ≤ n ∧ n % p = 0 then factorCountAux p f (n / p) + 1 else 0

/-- Multiplicity of `p` in `n` (0 when `p < 2` or `n = 0`). -/
def factorCount (p n : ℕ) : ℕ := factorCountAux p n n

/-- Decimal representation of a value: `some (m, d)` with `|t| = m / 10^d`
and `d` minimal, when the reduced denominator is of the form `2^a * 5^b`
(always the case for a binary64 value that `ParseFloat` produced from a
decimal string); `none` otherwise. -/
def decimalRep (t : GoFloat) : Option (ℕ × ℕ) :=
  let g := Nat.gcd t.num.natAbs t.den
  if g = 0 then none
  else
    let n' := t.num.natAbs / g
    let d' := t.den / g
    let a := factorCount 2 d'
    let b := factorCount 5 d'
    if d' = 2 ^ a * 5 ^ b then some ((n' * 10 ^ max a b) / d', max a b) else none

/-- Trailing-zero stripping for the shortest scientific mantissa. -/
def stripTrailZeros (cs : List Char) : List Char :=
  ((cs.reverse.dropWhile fun c => c = '0')).reverse

/-- Fixed-style rendering of `m / 10^d` (for `m > 0`). -/
def plainDecimal (m d : ℕ) : List Char :=
  if d = 0 then natDigitsStr m
  else
    let ds := natDigitsStr m
    if ds.length ≤ d then '0' :: '.' :: padLeftZeros d ds
    else ds.take (ds.length - d) ++ '.' :: ds.drop (ds.length - d)

/-- Model of `fmt.Sprintf("%g", t)` for finite-decimal rationals (the only
values reachable from `ParseFloat` on a decimal string). Irrational-in-base-10
denominators cannot arise there; that branch returns `""`. -/
def goFormatG (t : GoFloat) : String :=
  if t.num = 0 then "0"
  else
    let sgn : List Char := if t.num < 0 then ['-'] else []
    match decimalRep t with
    | some (m, d) =>
      let ds := natDigitsStr m
      let e : Int := (ds.length : Int) - d - 1
      if e < -4 ∨ 6 ≤ e then
        let ms := stripTrailZeros ds
        let mant := ms.take 1 ++ (if ms.length ≤ 1 then [] else '.' :: ms.drop 1)
        String.mk (sgn ++ mant ++ 'e' ::
          (if e < 0 then '-' else '+') :: padLeftZeros 2 (natDigitsStr e.natAbs))
      else String.mk (sgn ++ plainDecimal m d)
    | none => ""

/-- `utils.FormatPrice`: parse the tick size (fall back to two decimals when
malformed), round the price to the nearest multiple of the tick, count the
decimal places of the tick's `%g` rendering (0 unless the tick is below 1),
and format with that many decimals. -/
def FormatPrice (price : GoFloat) (tickSize : String) : String :=
  match parseGoFloat tickSize with
  | none => formatFixed price 2
  | some tickSizeFloat =>
    let nearestPrice : GoFloat :=
      GoFloat.mul ⟨mathRound (price.div tickSizeFloat), 1⟩ tickSizeFloat
    let decimalPlaces :=
      if tickSizeFloat.blt ⟨1, 1⟩ then fracDigitCount (goFormatG tickSizeFloat) else 0
    formatFixed nearestPrice decimalPlaces



/-! ## Signer (`internal/utils`: `GenerateHMAC`, `GenerateSignature`)

A complete executable SHA-256 / HMAC-SHA256 over byte lists (`crypto/hmac`,
`crypto/sha256`, `encoding/hex`), validated against the repository's own test
vectors. Machine words are `ℕ` reduced mod `2^32`. `sort.Strings` compares
Go strings bytewise; `charListLE` compares by code point, which induces the
same order on UTF-8 strings.
-/

def charUtf8Bytes (c : Char) : List ℕ :=
  let n := c.toNat
  if n < 128 then [n]
  else if n < 2048 then [192 ||| (n >>> 6), 128 ||| (n &&& 63)]
  else if n < 65536 then
    [224 ||| (n >>> 12), 128 ||| ((n >>> 6) &&& 63), 128 ||| (n &&& 63)]
  else
    [240 ||| (n >>> 18), 128 ||| ((n >>> 12) &&& 63), 128 ||| ((n >>> 6) &&& 63),
      128 ||| (n &&& 63)]

def stringToBytes (s : String) : List ℕ := (s.data.map charUtf8Bytes).flatten

def w32 (n : ℕ) : ℕ := n % 4294967296

def rotr32 (k x : ℕ) : ℕ := w32 ((x >>> k) ||| (x <<< (32 - k)))

def bsig0 (x : ℕ) : ℕ := (rotr32 2 x) ^^^ (rotr32 13 x) ^^^ (rotr32 22 x)

def bsig1 (x : ℕ) : ℕ := (rotr32 6 x) ^^^ (rotr32 11 x) ^^^ (rotr32 25 x)

def ssig0 (x : ℕ) : ℕ := (rotr32 7 x) ^^^ (rotr32 18 x) ^^^ (x >>> 3)

def ssig1 (x : ℕ) : ℕ := (rotr32 17 x) ^^^ (rotr32 19 x) ^^^ (x >>> 10)

def chf (x y z : ℕ) : ℕ := (x &&& y) ^^^ ((x ^^^ 4294967295) &&& z)

def majf (x y z : ℕ) : ℕ := (x &&& y) ^^^ (x &&& z) ^^^ (y &&& z)

def shaK : List ℕ :=
  [1116352408, 1899447441, 3049323471, 3921009573, 961987163, 1508970993,
   2453635748, 2870763221, 3624381080, 310598401, 607225278, 1426881987,
   1925078388, 2162078206, 2614888103, 3248222580, 3835390401, 4022224774,
   264347078, 604807628, 770255983, 1249150122, 1555081692, 1996064986,
   2554220882, 2821834349, 2952996808, 3210313671, 3336571891, 3584528711,
   113926993, 338241895, 666307205, 773529912, 1294757372, 1396182291,
   1695183700, 1986661051, 2177026350, 2456956037, 2730485921, 2820302411,
   3259730800, 3345764771, 3516065817, 3600352804, 4094571909, 275423344,
   430227734, 506948616, 659060556, 883997877, 958139571, 1322822218,
   1537002063, 1747873779, 1955562222, 2024104815, 2227730452, 2361852424,
   2428436474, 2756734187, 3204031479, 3329325298]

def shaH0 : List ℕ :=
  [1779033703, 3144134277, 1013904242, 2773480762,
   1359893119, 2600822924, 528734635, 1541459225]

def be64 (n : ℕ) : List ℕ :=
  [(n >>> 56) % 256, (n >>> 48) % 256, (n >>> 40) % 256, (n >>> 32) % 256,
   (n >>> 24) % 256, (n >>> 16) % 256, (n >>> 8) % 256, n % 256]

def padMessage (msg : List ℕ) : List ℕ :=
  let len := msg.length
  msg ++ 128 :: List.replicate ((55 + 64 - len % 64) % 64) 0 ++ be64 (8 * len)

def chunksAux : ℕ → List ℕ → List (List ℕ)
  | 0, _ => []
  | _, [] => []
  | f + 1, l => l.take 64 :: chunksAux f (l.drop 64)

def chunks64 (l : List ℕ) : List (List ℕ) := chunksAux l.length l

def toWords : List ℕ → List ℕ
  | b0 :: b1 :: b2 :: b3 :: rest =>
    ((((b0 <<< 8) ||| b1) <<< 8 ||| b2) <<< 8 ||| b3) :: toWords rest
  | _ => []

def extendW : ℕ → List ℕ → List ℕ
  | 0, acc => acc
  | k + 1, acc =>
    extendW k (w32 (ssig1 (acc.getD 1 0) + acc.getD 6 0 +
      ssig0 (acc.getD 14 0) + acc.getD 15 0) :: acc)

def schedule (block : List ℕ) : List ℕ := (extendW 48 (toWords block).reverse).reverse

def compressLoop : List (ℕ × ℕ) → ℕ × ℕ × ℕ × ℕ × ℕ × ℕ × ℕ × ℕ →
    ℕ × ℕ × ℕ × ℕ × ℕ × ℕ × ℕ × ℕ
  | [], st => st
  | (k, w) :: rest, (a, b, c, d, e, f, g, h) =>
    let t1 := w32 (h + bsig1 e + chf e f g + k + w)
    let t2 := w32 (bsig0 a + majf a b c)
    compressLoop rest (w32 (t1 + t2), a, b, c, w32 (d + t1), e, f, g)

def processBlock (h : List ℕ) (block : List ℕ) : List ℕ :=
  match h with
  | [a0, b0, c0, d0, e0, f0, g0, h0] =>
    let (a, b, c, d, e, f, g, hh) :=
      compressLoop (shaK.zip (schedule block)) (a0, b0, c0, d0, e0, f0, g0, h0)
    [w32 (a0 + a), w32 (b0 + b), w32 (c0 + c), w32 (d0 + d),
     w32 (e0 + e), w32 (f0 + f), w32 (g0 + g), w32 (h0 + hh)]
  | other => other

def sha256Bytes (msg : List ℕ) : List ℕ :=
  (((chunks64 (padMessage msg)).foldl processBlock shaH0).map fun w =>
    [(w >>> 24) % 256, (w >>> 16) % 256, (w >>> 8) % 256, w % 256]).flatten

def hexCharLower (d : ℕ) : Char :=
  if d < 10 then Char.ofNat (48 + d) else Char.ofNat (87 + d)

def bytesToHex (bs : List ℕ) : String :=
  String.mk ((bs.map fun b => [hexCharLower (b / 16), hexCharLower (b % 16)]).flatten)

def hmacSha256 (key msg : List ℕ) : List ℕ :=
  let k1 := if 64 < key.length then sha256Bytes key else key
  let k2 := k1 ++ List.replicate (64 - k1.length) 0
  sha256Bytes ((k2.map fun b => b ^^^ 92) ++
    sha256Bytes ((k2.map fun b => b ^^^ 54) ++ msg))

/-- `utils.GenerateHMAC`: lowercase hex digest of HMAC-SHA256. -/
def GenerateHMAC (secretKey data : String) : String :=
  bytesToHex (hmacSha256 (stringToBytes secretKey) (stringToBytes data))

/-- Lexicographic comparison of char lists by code point; on UTF-8 strings
this induces exactly the bytewise order `sort.Strings` uses. -/
def charListLE : List Char → List Char → Bool
  | [], _ => true
  | _ :: _, [] => false
  | a :: as, b :: bs =>
    if a.toNat < b.toNat then true
    else if b.toNat < a.toNat then false
    else charListLE as bs

def goStringLE (a b : String) : Bool := charListLE a.data b.data

def paramLE (a b : String × String) : Prop := goStringLE a.1 b.1 = true

instance : DecidableRel paramLE := fun a b =>
  inferInstanceAs (Decidable (goStringLE a.1 b.1 = true))

/-- The canonical query string of `GenerateSignature`: parameters sorted by
key ascending, joined as `key=value` pairs with `&`. -/
def signaturePayload (params : List (String × String)) : String :=
  String.intercalate "&"
    ((List.insertionSort paramLE params).map fun kv => kv.1 ++ "=" ++ kv.2)

/-- `utils.GenerateSignature`. The Go function iterates over a `map[string]string`
(distinct keys, arbitrary order) and sorts the keys; the model takes the
key/value pairs as a list. -/
def GenerateSignature (secretKey : String) (params : List (String × String)) : String :=
  GenerateHMAC secretKey (signaturePayload params)

/-! ## Data model (`internal/models/models.go`)

`models.Order`, statuses, orderbook types. `float64` fields become `ℚ`,
`int64`/`int` become `Int`.
-/

structure Order where
  symbol : String
  orderID : Int
  orderListID : Int
  clientOrderID : String
  transactTime : Int
  price : String
  origQty : String
  executedQty : String
  cummulativeQuoteQty : String
  status : String
  timeInForce : String
  type' : String
  side : String
  workingTime : Int
  selfTradePreventionMode : String
  deriving Repr, DecidableEq

def defaultOrder : Order :=
  { symbol := "", orderID := 0, orderListID := 0, clientOrderID := "",
    transactTime := 0, price := "", origQty := "", executedQty := "",
    cummulativeQuoteQty := "", status := "", timeInForce := "", type' := "",
    side := "", workingTime := 0, selfTradePreventionMode := "" }

def orderStatusNew : String := "NEW"
def orderStatusPartiallyFilled : String := "PARTIALLY_FILLED"
def orderStatusFilled : String := "FILLED"
def orderStatusCanceled : String := "CANCELED"

structure PriceLevel where
  price : GoFloat
  quantity : GoFloat
  deriving Repr, DecidableEq

structure OrderbookDepth where
  lastUpdateID : Int
  bids : List (List String)
  asks : List (List String)
  deriving Repr, DecidableEq

structure ParsedOrderBook where
  symbol : String
  lastUpdateID : Int
  bids : List PriceLevel
  asks : List PriceLevel
  deriving Repr, DecidableEq

/-! ## Order registry (`internal/ordermanager`)

`Manager` holds two Go maps whose values are shared `*OrderState` pointers.
We model the pointers as `Nat` references into an explicit heap, so that the
in-place mutation done by `UpdateOrder` is visible through both maps, exactly
as in Go. `time.Now()` is threaded through as an abstract `now : Nat`.
-/

structure OrderState where
  order : Order
  lastUpdateTime : Nat
  updated : Bool
  deriving Repr, DecidableEq

structure Manager where
  orders : List (Int × Nat)
  clientOrders : List (String × Nat)
  heap : List (Nat × OrderState)
  nextRef : Nat
  deriving Repr, DecidableEq

def Manager.new : Manager := { orders := [], clientOrders := [], heap := [], nextRef := 0 }

/-- `Manager.TrackOrder`: store a fresh record under the exchange id, and also
under the client id when it is non-empty. -/
def trackOrder (now : Nat) (order : Order) (m : Manager) : Manager :=
  let ρ := m.nextRef
  { orders := insertA m.orders order.orderID ρ
    clientOrders :=
      if order.clientOrderID ≠ "" then insertA m.clientOrders order.clientOrderID ρ
      else m.clientOrders
    heap := insertA m.heap ρ ⟨order, now, false⟩
    nextRef := ρ + 1 }

/-- `Manager.UpdateOrder`: find the record by exchange id, falling back to the
client id; overwrite it in place; error if neither key is present (the
registry is returned unchanged alongside the error). -/
def updateOrder (now : Nat) (order : Order) (m : Manager) :
    Except String Unit × Manager :=
  match lookupA m.orders order.orderID with
  | some ρ =>
    (Except.ok (), { m with heap := insertA m.heap ρ ⟨order, now, true⟩ })
  | none =>
    match lookupA m.clientOrders order.clientOrderID with
    | some ρ =>
      (Except.ok (), { m with heap := insertA m.heap ρ ⟨order, now, true⟩ })
    | none =>
      (Except.error ("order not found: " ++ toString order.orderID ++
        " (" ++ order.clientOrderID ++ ")"), m)

/-- `Manager.GetOrder`. A dangling reference (impossible in Go, where the maps
hold live pointers) is reported as the same lookup error. -/
def getOrder (m : Manager) (orderID : Int) : Except String Order :=
  match lookupA m.orders orderID with
  | some ρ =>
    match lookupA m.heap ρ with
    | some st => Except.ok st.order
    | none => Except.error ("order not found: " ++ toString orderID)
  | none => Except.error ("order not found: " ++ toString orderID)

/-- `Manager.GetClientOrders`. -/
def getClientOrders (m : Manager) (clientOrderID : String) : Except String Order :=
  match lookupA m.clientOrders clientOrderID with
  | some ρ =>
    match lookupA m.heap ρ with
    | some st => Except.ok st.order
    | none => Except.error ("order not found: " ++ clientOrderID)
  | none => Except.error ("order not found: " ++ clientOrderID)

/-- The records reachable through the exchange-id map, in map order
(`for _, state := range m.orders`). -/
def allOrders (m : Manager) : List Order :=
  m.orders.filterMap fun kv => (lookupA m.heap kv.2).map (·.order)

/-- `Manager.GetOrdersByStatus`. -/
def getOrdersByStatus (m : Manager) (status : String) : List Order :=
  (allOrders m).filter fun o => o.status = status

/-- `Manager.GetOrdersByStatuses`. -/
def getOrdersByStatuses (m : Manager) (statuses : List String) : List Order :=
  (allOrders m).filter fun o => o.status ∈ statuses

/-- `Manager.GetActiveOrders` = orders with status NEW or PARTIALLY_FILLED. -/
def getActiveOrders (m : Manager) : List Order :=
  getOrdersByStatuses m [orderStatusNew, orderStatusPartiallyFilled]

/-- `Manager.RemoveOrder`: look the record up by exchange id, then delete it
from the exchange-id map and (when its client id is non-empty) from the
client-id map. -/
def removeOrder (orderID : Int) (m : Manager) : Except String Unit × Manager :=
  match getOrder m orderID with
  | Except.error e => (Except.error e, m)
  | Except.ok order =>
    (Except.ok (),
      { m with
        orders := eraseA m.orders orderID
        clientOrders :=
          if order.clientOrderID ≠ "" then eraseA m.clientOrders order.clientOrderID
          else m.clientOrders })

/-! ## WebSocket transport (`internal/websocket/client.go`)

The dispatch table `responseHandlers` maps request-id strings to single-use
response handlers. Handlers are opaque to the dispatch logic, so they are
modelled as abstract tokens (`Nat`); invoking one means returning its token.
The connection handle is modelled by a `Bool` (nil / live), and the two
external failure sources of `SendRequest` — `json.Marshal` and
`WriteMessage` — are supplied as boolean oracles.
-/

structure WSClient where
  connectionEstablished : Bool
  responseHandlers : List (String × Nat)
  deriving Repr, DecidableEq

def WSClient.new : WSClient := { connectionEstablished := false, responseHandlers := [] }

/-- The parsed inbound envelope (`models.WebSocketResponse`) as far as the
dispatcher inspects it. -/
structure WSResponse where
  id : String
  status : Int
  hasError : Bool
  deriving Repr, DecidableEq

/-- `Client.handleMessage` on an inbound message that parsed successfully:
if the envelope id is non-empty and a handler is registered under it, invoke
exactly that handler (returned as `some token`) and remove the registration;
otherwise invoke nothing and leave the table unchanged. A message that fails
to parse never reaches this point (the Go code returns before the lookup). -/
def handleMessage (c : WSClient) (resp : WSResponse) : Option Nat × WSClient :=
  if resp.id ≠ "" then
    match lookupA c.responseHandlers resp.id with
    | some handler =>
      (some handler, { c with responseHandlers := eraseA c.responseHandlers resp.id })
    | none => (none, c)
  else (none, c)

/-- `Client.SendRequest`: fail if no connection; register the handler (when
non-nil) under the freshly generated request id; marshal; re-check the
connection; write. Neither error path rolls the registration back.
`newId` stands for `uuid.New().String()`. -/
def sendRequest (c : WSClient) (newId : String) (handler : Option Nat)
    (marshalOk writeOk : Bool) : Except String String × WSClient :=
  if ¬ c.connectionEstablished then
    (Except.error "WebSocket connection is not established", c)
  else
    let c₁ :=
      match handler with
      | some h => { c with responseHandlers := insertA c.responseHandlers newId h }
      | none => c
    if ¬ marshalOk then (Except.error "failed to marshal request", c₁)
    else if ¬ c₁.connectionEstablished then
      (Except.error "WebSocket connection is not established", c₁)
    else if ¬ writeOk then (Except.error "failed to send request", c₁)
    else (Except.ok newId, c₁)

/-! ## Market maker (`internal/trader/trader.go`)

`MarketMaker` carries an `active` flag, the Quote Pair (`activeOrders`:
exchange order id ↦ side) and one `sync.RWMutex`. The mutex matters for the
lifecycle claims, so it is modelled explicitly as `muLocked`; an operation
that would block forever acquiring it yields `none`. `Stop` ends with a bare
`m.mu.Lock()` and returns while still holding the lock, which the model
records faithfully.
-/

structure MarketMaker where
  active : Bool
  activeOrders : List (Int × String)
  muLocked : Bool
  ctxCancelled : Bool
  deriving Repr, DecidableEq

/-- One LIMIT/MARKET placement request as handed to `client.PlaceOrder`. -/
structure OrderRequest where
  side : String
  type' : String
  price : String
  quantity : String
  deriving Repr, DecidableEq

/-- The placements one `refreshOrders(askPrice, bidPrice)` issues after the
cancel phase: a BUY LIMIT at the bid price, then a SELL LIMIT at the ask
price, each for the configured order quantity. -/
def refreshOrderPlacements (askPrice bidPrice orderQty : String) : List OrderRequest :=
  [⟨"BUY", "LIMIT", bidPrice, orderQty⟩, ⟨"SELL", "LIMIT", askPrice, orderQty⟩]

/-- The price/quote computation of `MarketMaker.updateMarketState` on a
fetched order book: fail on an empty side; otherwise take the top-of-book
bid/ask, compute mid price, spread amount and quote prices, quantize both
with `FormatPrice`, and hand them to `refreshOrders`. -/
def updateMarketState (spreadPercentage : GoFloat) (tickSize orderQty : String)
    (orderbook : ParsedOrderBook) : Except String (List OrderRequest) :=
  match orderbook.asks, orderbook.bids with
  | [], _ => Except.error "empty orderbook"
  | _, [] => Except.error "empty orderbook"
  | ask :: _, bid :: _ =>
    let highestBidPrice := bid.price
    let lowestAskPrice := ask.price
    let midPrice := (lowestAskPrice.add highestBidPrice).div ⟨2, 1⟩
    let spreadAmount := midPrice.mul (spreadPercentage.div ⟨100, 1⟩)
    let bidPrice := midPrice.sub spreadAmount
    let askPrice := midPrice.add spreadAmount
    let askPriceStr := FormatPrice askPrice tickSize
    let bidPriceStr := FormatPrice bidPrice tickSize
    Except.ok (refreshOrderPlacements askPriceStr bidPriceStr orderQty)

/-! ## Order book parsing (`internal/api`, `parseOrderbook`)

The Go function preallocates the result slices at the input lengths, skips
(`continue`) any textual row with at most one element — leaving the zero
`PriceLevel` in place — and returns the `strconv.ParseFloat` error as soon as
a price or quantity of a longer row fails to parse.
-/

def parseLevelRows : List (List String) → Except String (List PriceLevel)
  | [] => Except.ok []
  | row :: rest =>
    match row with
    | p :: q :: _ =>
      match parseGoFloat p with
      | none => Except.error "invalid syntax"
      | some price =>
        match parseGoFloat q with
        | none => Except.error "invalid syntax"
        | some qty =>
          match parseLevelRows rest with
          | Except.error e => Except.error e
          | Except.ok levels => Except.ok (⟨price, qty⟩ :: levels)
    | _ =>
      -- `len(bid) <= 1`: skipped, the preallocated zero value remains
      match parseLevelRows rest with
      | Except.error e => Except.error e
      | Except.ok levels => Except.ok (⟨⟨0, 1⟩, ⟨0, 1⟩⟩ :: levels)

/-- `parseOrderbook`. -/
def parseOrderbook (data : OrderbookDepth) : Except String ParsedOrderBook :=
  match parseLevelRows data.bids with
  | Except.error e => Except.error e
  | Except.ok bids =>
    match parseLevelRows data.asks with
    | Except.error e => Except.error e
    | Except.ok asks =>
      Except.ok { symbol := "", lastUpdateID := data.lastUpdateID, bids := bids, asks := asks }

/-- `MarketMaker.Stop`. Result: `none` when the initial `m.mu.Lock()` blocks
forever; otherwise `some (post, cancels)` where `cancels` lists the order ids
for which a best-effort `client.CancelOrder` was issued while draining the
Quote Pair. On the non-trivial path the final bare `m.mu.Lock()` of the
source leaves the mutex held after `Stop` returns. -/
def stop (m : MarketMaker) : Option (MarketMaker × List Int) :=
  if m.muLocked then none
  else if ¬ m.active then (some (m, []))
  else
    some
      ({ m with active := false, ctxCancelled := true, activeOrders := [], muLocked := true },
        m.activeOrders.map (·.1))

/-- `MarketMaker.Start`. Result: `none` when `m.mu.Lock()` blocks forever;
otherwise `some (post, spawned)` where `spawned` says whether a new
`tradingLoop` goroutine was launched. -/
def start (m : MarketMaker) : Option (MarketMaker × Bool) :=
  if m.muLocked then none
  else if m.active then some (m, false)
  else some ({ m with active := true }, true)

/-! ## Registry operations, well-formedness and the reachability invariant

For the invariant claim, the three mutating registry operations are
packaged as `RegOp`. `RegInv` is the full inductive invariant: both maps
point at live heap records carrying the key they are filed under, each
record's other key points back at the same record, references are below
`nextRef` (freshness), and the client map never holds the empty key.
`RegOpOk` is the consistency precondition under which an operation
preserves the invariant: a track/update may not re-key an existing record
(same exchange id keeps its client id and vice versa). The claim's own
invariant — every order reachable by client id with a known exchange id is
reachable by that exchange id — is the `clientHeap` field.
-/

inductive RegOp : Type where
  | track (now : ℕ) (o : Order) : RegOp
  | update (now : ℕ) (o : Order) : RegOp
  | remove (orderID : Int) : RegOp

def applyRegOp (m : Manager) : RegOp → Manager
  | RegOp.track now o => trackOrder now o m
  | RegOp.update now o => (updateOrder now o m).2
  | RegOp.remove orderID => (removeOrder orderID m).2

structure RegInv (m : Manager) : Prop where
  ordersHeap : ∀ k ρ, lookupA m.orders k = some ρ →
    ∃ st, lookupA m.heap ρ = some st ∧ st.order.orderID = k ∧
      (st.order.clientOrderID ≠ "" →
        lookupA m.clientOrders st.order.clientOrderID = some ρ)
  clientHeap : ∀ c ρ, lookupA m.clientOrders c = some ρ →
    ∃ st, lookupA m.heap ρ = some st ∧ st.order.clientOrderID = c ∧
      lookupA m.orders st.order.orderID = some ρ
  ordersBound : ∀ k ρ, lookupA m.orders k = some ρ → ρ < m.nextRef
  clientBound : ∀ c ρ, lookupA m.clientOrders c = some ρ → ρ < m.nextRef
  heapBound : ∀ ρ st, lookupA m.heap ρ = some st → ρ < m.nextRef
  noEmptyKey : lookupA m.clientOrders "" = none

def RegOpOk (m : Manager) : RegOp → Prop
  | RegOp.track _ o =>
    (∀ ρ st, lookupA m.orders o.orderID = some ρ → lookupA m.heap ρ = some st →
      st.order.clientOrderID = o.clientOrderID) ∧
    (∀ ρ st, o.clientOrderID ≠ "" →
      lookupA m.clientOrders o.clientOrderID = some ρ →
      lookupA m.heap ρ = some st → st.order.orderID = o.orderID)
  | RegOp.update _ o =>
    ∀ ρ st, (lookupA m.orders o.orderID = some ρ ∨
        (lookupA m.orders o.orderID = none ∧
          lookupA m.clientOrders o.clientOrderID = some ρ)) →
      lookupA m.heap ρ = some st →
      st.order.orderID = o.orderID ∧ st.order.clientOrderID = o.clientOrderID
  | RegOp.remove _ => True

/-- Registry states reachable from the empty registry by consistent
operations. -/
inductive ReachableOk : Manager → Prop where
  | new : ReachableOk Manager.new
  | step {m : Manager} {op : RegOp} :
      ReachableOk m → RegOpOk m op → ReachableOk (applyRegOp m op)

/-! ## Concrete sample data used by witnesses and counterexamples -/

/-- The order of the Order Registry testable property (`OrderID=1`,
`ClientOrderID="c1"`). -/
def c7Order : Order :=
  { defaultOrder with
    symbol := "BTCUSDT", orderID := 1, clientOrderID := "c1",
    status := "NEW", side := "BUY", price := "10000.00", origQty := "1.0" }

/-- The same order after a FILLED update. -/
def c7FilledOrder : Order := { c7Order with status := "FILLED" }

/-- The order book of the Market Maker refresh property (best bid 9000,
best ask 9100). -/
def book9000 : ParsedOrderBook :=
  { symbol := "", lastUpdateID := 0,
    bids := [⟨⟨9000, 1⟩, ⟨1, 1⟩⟩], asks := [⟨⟨9100, 1⟩, ⟨1, 1⟩⟩] }

/-- A market maker in the Running state with an empty Quote Pair. -/
def mmRunning : MarketMaker :=
  { active := true, activeOrders := [], muLocked := false, ctxCancelled := false }

/-- First order of the invariant counterexample: exchange id 1, client id `"c"`. -/
def c5OrderA : Order :=
  { defaultOrder with orderID := 1, clientOrderID := "c", status := "NEW" }

/-- Second order of the invariant counterexample: exchange id 2, same client
id `"c"` — the update that reaches the record through the client-id fallback
and re-keys its exchange id in place. -/
def c5OrderB : Order :=
  { defaultOrder with orderID := 2, clientOrderID := "c", status := "NEW" }

/-! ## Association list lemmas -/

theorem lookupA_insertA_self {κ ν : Type} [DecidableEq κ]
    (l : List (κ × ν)) (k : κ) (v : ν) : lookupA (insertA l k v) k = some v := by
  induction l with
  | nil => simp [insertA, lookupA]
  | cons hd t ih =>
    obtain ⟨k', v'⟩ := hd
    by_cases h : k' = k <;> simp [insertA, lookupA, h, ih]

theorem lookupA_insertA_ne {κ ν : Type} [DecidableEq κ]
    (l : List (κ × ν)) (k k' : κ) (v : ν) (h : k ≠ k') :
    lookupA (insertA l k v) k' = lookupA l k' := by
  induction l with
  | nil => simp [insertA, lookupA, h]
  | cons hd t ih =>
    obtain ⟨k₀, v₀⟩ := hd
    by_cases h₀ : k₀ = k
    · subst h₀; simp [insertA, lookupA, h]
    · simp only [insertA, if_neg h₀, lookupA]
      by_cases h₁ : k₀ = k' <;> simp [h₁, ih]

theorem lookupA_eraseA_self {κ ν : Type} [DecidableEq κ]
    (l : List (κ × ν)) (k : κ) : lookupA (eraseA l k) k = none := by
  induction l with
  | nil => simp [eraseA, lookupA]
  | cons hd t ih =>
    obtain ⟨k', v'⟩ := hd
    by_cases h : k' = k <;> simp [eraseA, lookupA, h, ih]

theorem lookupA_eraseA_ne {κ ν : Type} [DecidableEq κ]
    (l : List (κ × ν)) (k k' : κ) (h : k ≠ k') :
    lookupA (eraseA l k) k' = lookupA l k' := by
  induction l with
  | nil => simp [eraseA, lookupA]
  | cons hd t ih =>
    obtain ⟨k₀, v₀⟩ := hd
    by_cases h₀ : k₀ = k
    · subst h₀; simp [eraseA, lookupA, h, ih]
    · simp only [eraseA, if_neg h₀, lookupA]
      by_cases h₁ : k₀ = k' <;> simp [h₁, ih]

/-! ## GoFloat semantics -/

theorem GoFloat.WF.add {x y : GoFloat} (hx : x.WF) (hy : y.WF) : (x.add y).WF :=
  Nat.mul_pos hx hy

theorem GoFloat.WF.sub {x y : GoFloat} (hx : x.WF) (hy : y.WF) : (x.sub y).WF :=
  Nat.mul_pos hx hy

theorem GoFloat.WF.mul {x y : GoFloat} (hx : x.WF) (hy : y.WF) : (x.mul y).WF :=
  Nat.mul_pos hx hy

theorem GoFloat.WF.div {x : GoFloat} (hx : x.WF) (y : GoFloat) : (x.div y).WF := by
  by_cases h : y.num = 0
  · simp [GoFloat.div, h, GoFloat.WF]
  · simp only [GoFloat.div, if_neg h]
    exact Nat.mul_pos hx (Int.natAbs_pos.2 h)

theorem GoFloat.toRat_add {x y : GoFloat} (hx : x.WF) (hy : y.WF) :
    (x.add y).toRat = x.toRat + y.toRat := by
  have hx' : (x.den : ℚ) ≠ 0 := Nat.cast_ne_zero.2 hx.ne'
  have hy' : (y.den : ℚ) ≠ 0 := Nat.cast_ne_zero.2 hy.ne'
  simp only [GoFloat.add, GoFloat.toRat]
  push_cast
  field_simp

theorem GoFloat.toRat_sub {x y : GoFloat} (hx : x.WF) (hy : y.WF) :
    (x.sub y).toRat = x.toRat - y.toRat := by
  have hx' : (x.den : ℚ) ≠ 0 := Nat.cast_ne_zero.2 hx.ne'
  have hy' : (y.den : ℚ) ≠ 0 := Nat.cast_ne_zero.2 hy.ne'
  simp only [GoFloat.sub, GoFloat.toRat]
  push_cast
  field_simp
  ring

theorem GoFloat.toRat_mul (x y : GoFloat) :
    (x.mul y).toRat = x.toRat * y.toRat := by
  simp only [GoFloat.mul, GoFloat.toRat]
  push_cast
  rw [div_mul_div_comm]

theorem GoFloat.toRat_neg (x : GoFloat) : x.neg.toRat = -x.toRat := by
  simp [GoFloat.neg, GoFloat.toRat, neg_div]

theorem GoFloat.toRat_div {x y : GoFloat} (hx : x.WF) (hy : y.WF) (hy0 : y.num ≠ 0) :
    (x.div y).toRat = x.toRat / y.toRat := by
  have hx' : (x.den : ℚ) ≠ 0 := Nat.cast_ne_zero.2 hx.ne'
  have hy' : (y.den : ℚ) ≠ 0 := Nat.cast_ne_zero.2 hy.ne'
  have hyq : (y.num : ℚ) ≠ 0 := Int.cast_ne_zero.2 hy0
  rcases lt_trichotomy y.num 0 with h | h | h
  · have hs : y.num.sign = -1 := by rw [Int.sign_eq_neg_one_iff_neg]; exact h
    have hz : (y.num.natAbs : ℤ) = -y.num := by omega
    have hna : ((y.num.natAbs : ℕ) : ℚ) = -(y.num : ℚ) := by
      have h1 : ((y.num.natAbs : ℕ) : ℚ) = ((y.num.natAbs : ℤ) : ℚ) :=
        (Int.cast_natCast y.num.natAbs).symm
      rw [h1, hz]
      push_cast
      ring
    simp only [GoFloat.div, if_neg hy0, GoFloat.toRat, hs]
    push_cast
    rw [hna]
    field_simp
  · exact absurd h hy0
  · have hs : y.num.sign = 1 := by rw [Int.sign_eq_one_iff_pos]; exact h
    have hz : (y.num.natAbs : ℤ) = y.num := by omega
    have hna : ((y.num.natAbs : ℕ) : ℚ) = (y.num : ℚ) := by
      have h1 : ((y.num.natAbs : ℕ) : ℚ) = ((y.num.natAbs : ℤ) : ℚ) :=
        (Int.cast_natCast y.num.natAbs).symm
      rw [h1, hz]
    simp only [GoFloat.div, if_neg hy0, GoFloat.toRat, hs]
    push_cast
    rw [hna]
    field_simp

/-! ## C6 — update on an unknown order fails and leaves the registry unchanged -/

/-- C6: when no record exists under the order's exchange id nor under its
client id, `UpdateOrder` fails with the order-not-found error and the
registry value is exactly the one passed in — no record is created, modified
or removed on the error path. -/
theorem updateOrder_unknown_fails_registry_unchanged
    (m : Manager) (now : Nat) (o : Order)
    (h₁ : lookupA m.orders o.orderID = none)
    (h₂ : lookupA m.clientOrders o.clientOrderID = none) :
    updateOrder now o m =
      (Except.error ("order not found: " ++ toString o.orderID ++
        " (" ++ o.clientOrderID ++ ")"), m) := by
  simp [updateOrder, h₁, h₂]

/-- C6 witness: a concrete unknown order against the registry that tracks
`c7Order` only. -/
theorem updateOrder_unknown_fails_registry_unchanged_witness :
    updateOrder 3 { defaultOrder with orderID := 7, clientOrderID := "zz" }
        (trackOrder 0 c7Order Manager.new) =
      (Except.error "order not found: 7 (zz)",
        trackOrder 0 c7Order Manager.new) :=
  updateOrder_unknown_fails_registry_unchanged _ 3 _ (by decide) (by decide)

/-! ## C7 — track/get/update/filter round trip -/

/-- C7: after `TrackOrder` of the order with `OrderID = 1` and
`ClientOrderID = "c1"`, both `GetOrder 1` and `GetClientOrders "c1"` return a
record equal to it; after an update of that order with status FILLED,
`GetActiveOrders` no longer includes it while `GetOrdersByStatus "FILLED"`
does. -/
theorem registry_track_get_update_status_filters :
    getOrder (trackOrder 0 c7Order Manager.new) 1 = Except.ok c7Order ∧
    getClientOrders (trackOrder 0 c7Order Manager.new) "c1" = Except.ok c7Order ∧
    (updateOrder 1 c7FilledOrder (trackOrder 0 c7Order Manager.new)).1 = Except.ok () ∧
    c7FilledOrder ∉
      getActiveOrders (updateOrder 1 c7FilledOrder (trackOrder 0 c7Order Manager.new)).2 ∧
    getActiveOrders (updateOrder 1 c7FilledOrder (trackOrder 0 c7Order Manager.new)).2 = [] ∧
    c7FilledOrder ∈
      getOrdersByStatus (updateOrder 1 c7FilledOrder (trackOrder 0 c7Order Manager.new)).2
        "FILLED" := by
  decide

/-! ## C4 — exact, at-most-once handler dispatch -/

/-- C4: when the envelope id of an inbound message is registered, the reader
invokes exactly that caller's handler and removes the registration, so a
second message bearing the same id invokes no handler; and a message whose id
matches no registration invokes no handler at all. -/
theorem handleMessage_exactly_once_per_registration
    (c : WSClient) (resp resp' : WSResponse) (h : Nat)
    (hid : resp.id ≠ "")
    (hreg : lookupA c.responseHandlers resp.id = some h) :
    handleMessage c resp =
      (some h, { c with responseHandlers := eraseA c.responseHandlers resp.id }) ∧
    (resp'.id = resp.id → (handleMessage (handleMessage c resp).2 resp').1 = none) ∧
    (∀ c' : WSClient, ∀ r : WSResponse,
      lookupA c'.responseHandlers r.id = none → (handleMessage c' r).1 = none) := by
  have h1 : handleMessage c resp =
      (some h, { c with responseHandlers := eraseA c.responseHandlers resp.id }) := by
    simp [handleMessage, hid, hreg]
  refine ⟨h1, ?_, ?_⟩
  · intro hsame
    rw [h1]
    have h2 : lookupA (eraseA c.responseHandlers resp.id) resp'.id = none := by
      rw [hsame]; exact lookupA_eraseA_self _ _
    by_cases hid' : resp'.id = ""
    · simp [handleMessage, hid']
    · simp [handleMessage, hid', h2]
  · intro c' r hnone
    by_cases hid' : r.id = ""
    · simp [handleMessage, hid']
    · simp [handleMessage, hid', hnone]

/-- C4 witness: one registered handler, delivered once and not twice. -/
theorem handleMessage_exactly_once_per_registration_witness :
    handleMessage ⟨true, [("id-1", 42)]⟩ ⟨"id-1", 200, false⟩ =
      (some 42, ⟨true, []⟩) ∧
    ((⟨"id-1", 200, false⟩ : WSResponse).id = ("id-1" : String) →
      (handleMessage (handleMessage ⟨true, [("id-1", 42)]⟩ ⟨"id-1", 200, false⟩).2
        ⟨"id-1", 200, false⟩).1 = none) ∧
    (∀ c' : WSClient, ∀ r : WSResponse,
      lookupA c'.responseHandlers r.id = none → (handleMessage c' r).1 = none) := by
  have h := handleMessage_exactly_once_per_registration ⟨true, [("id-1", 42)]⟩
    ⟨"id-1", 200, false⟩ ⟨"id-1", 200, false⟩ 42 (by decide) (by decide)
  exact ⟨h.1.trans (by decide), fun _ => h.2.1 rfl, h.2.2⟩

/-! ## C10 — a failed SendRequest does not roll back the registration -/

/-- C10: if `SendRequest` registers a non-nil handler and then fails (the
marshal fails or the connection write fails), the dispatch-table entry under
the fresh request id is still present after the call returns, and it is
removed exactly when a message bearing that id is later handled. -/
theorem sendRequest_error_keeps_registration
    (c : WSClient) (newId : String) (hdl : Nat) (marshalOk writeOk : Bool)
    (hconn : c.connectionEstablished = true)
    (hfail : marshalOk = false ∨ writeOk = false)
    (hne : newId ≠ "") :
    (∃ e, (sendRequest c newId (some hdl) marshalOk writeOk).1 = Except.error e) ∧
    lookupA (sendRequest c newId (some hdl) marshalOk writeOk).2.responseHandlers
      newId = some hdl ∧
    (handleMessage (sendRequest c newId (some hdl) marshalOk writeOk).2
      ⟨newId, 200, false⟩).1 = some hdl ∧
    lookupA (handleMessage (sendRequest c newId (some hdl) marshalOk writeOk).2
      ⟨newId, 200, false⟩).2.responseHandlers newId = none := by
  have hreg : lookupA (sendRequest c newId (some hdl) marshalOk writeOk).2.responseHandlers
      newId = some hdl := by
    cases hm : marshalOk <;> cases hw : writeOk <;>
      simp_all [sendRequest, lookupA_insertA_self]
  refine ⟨?_, hreg, ?_, ?_⟩
  · rcases hfail with hf | hf <;> subst hf
    · exact ⟨"failed to marshal request", by simp [sendRequest, hconn]⟩
    · cases hm : marshalOk
      · exact ⟨"failed to marshal request", by simp [sendRequest, hconn]⟩
      · exact ⟨"failed to send request", by simp [sendRequest, hconn]⟩
  · simp [handleMessage, hne, hreg]
  · simp [handleMessage, hne, hreg, lookupA_eraseA_self]

/-- C10 witness: a live client, marshal succeeds, write fails. -/
theorem sendRequest_error_keeps_registration_witness :
    (∃ e, (sendRequest ⟨true, []⟩ "id-9" (some 7) true false).1 = Except.error e) ∧
    lookupA (sendRequest ⟨true, []⟩ "id-9" (some 7) true false).2.responseHandlers
      "id-9" = some 7 ∧
    (handleMessage (sendRequest ⟨true, []⟩ "id-9" (some 7) true false).2
      ⟨"id-9", 200, false⟩).1 = some 7 ∧
    lookupA (handleMessage (sendRequest ⟨true, []⟩ "id-9" (some 7) true false).2
      ⟨"id-9", 200, false⟩).2.responseHandlers "id-9" = none :=
  sendRequest_error_keeps_registration ⟨true, []⟩ "id-9" 7 true false rfl
    (Or.inr rfl) (by decide)

/-! ## C8 — the second Stop deadlocks (code bug)

`MarketMaker.Stop` ends in a bare `m.mu.Lock()` with no matching unlock, so
the first (effective) `Stop` returns while holding the mutex; a second
`Stop` — and `Start`, and `IsActive` — then blocks forever instead of being
the logged no-op the specification describes.
-/

/-- C8: evaluated on a Running market maker, the first `Stop` returns with
the mutex still held (`muLocked = true`); the second `Stop` blocks forever
(`none`) instead of returning as a no-op. (`Start` on a Running instance
does return without spawning a second loop, as the claim also states.) -/
theorem stop_twice_deadlocks :
    stop mmRunning =
      some ({ active := false, activeOrders := [], muLocked := true,
              ctxCancelled := true }, []) ∧
    stop { active := false, activeOrders := [], muLocked := true,
           ctxCancelled := true } = none ∧
    start mmRunning = some (mmRunning, false) := by
  decide

/-! ## C1 — the refresh cycle's quote computation -/

/-- C1: for every order book with a non-empty top of book, one refresh
computes `mid = (ask + bid)/2`, `spread = mid * spreadPercentage / 100` and
places a BUY LIMIT at `mid - spread` and a SELL LIMIT at `mid + spread`
(quantized by `FormatPrice`); for best bid 9000, best ask 9100, spread 1%
and tick `"0.01"`, the raw quotes are 8959.5 / 9140.5 and the placed price
strings are exactly `"8959.50"` (BUY) and `"9140.50"` (SELL). -/
theorem updateMarketState_quotes
    (book : ParsedOrderBook) (bid ask : PriceLevel)
    (bids asks : List PriceLevel) (pct : GoFloat) (tick qty : String)
    (hb : book.bids = bid :: bids) (ha : book.asks = ask :: asks)
    (hbw : bid.price.WF) (haw : ask.price.WF) (hpw : pct.WF) :
    updateMarketState pct tick qty book =
      Except.ok
        [⟨"BUY", "LIMIT",
          FormatPrice (((ask.price.add bid.price).div ⟨2, 1⟩).sub
            (((ask.price.add bid.price).div ⟨2, 1⟩).mul (pct.div ⟨100, 1⟩))) tick, qty⟩,
         ⟨"SELL", "LIMIT",
          FormatPrice (((ask.price.add bid.price).div ⟨2, 1⟩).add
            (((ask.price.add bid.price).div ⟨2, 1⟩).mul (pct.div ⟨100, 1⟩))) tick, qty⟩] ∧
    (((ask.price.add bid.price).div ⟨2, 1⟩).sub
        (((ask.price.add bid.price).div ⟨2, 1⟩).mul (pct.div ⟨100, 1⟩))).toRat =
      (ask.price.toRat + bid.price.toRat) / 2 -
        (ask.price.toRat + bid.price.toRat) / 2 * (pct.toRat / 100) ∧
    (((ask.price.add bid.price).div ⟨2, 1⟩).add
        (((ask.price.add bid.price).div ⟨2, 1⟩).mul (pct.div ⟨100, 1⟩))).toRat =
      (ask.price.toRat + bid.price.toRat) / 2 +
        (ask.price.toRat + bid.price.toRat) / 2 * (pct.toRat / 100) ∧
    FormatPrice ⟨17919, 2⟩ "0.01" = "8959.50" ∧
    FormatPrice ⟨18281, 2⟩ "0.01" = "9140.50" ∧
    (⟨17919, 2⟩ : GoFloat).toRat = 8959.5 ∧
    (⟨18281, 2⟩ : GoFloat).toRat = 9140.5 := by
  have hmw : ((ask.price.add bid.price).div ⟨2, 1⟩).WF :=
    GoFloat.WF.div (GoFloat.WF.add haw hbw) _
  have hsw : (((ask.price.add bid.price).div ⟨2, 1⟩).mul (pct.div ⟨100, 1⟩)).WF :=
    GoFloat.WF.mul hmw (GoFloat.WF.div hpw _)
  have hmid : ((ask.price.add bid.price).div ⟨2, 1⟩).toRat =
      (ask.price.toRat + bid.price.toRat) / 2 := by
    rw [GoFloat.toRat_div (GoFloat.WF.add haw hbw) (by norm_num [GoFloat.WF]) (by norm_num),
      GoFloat.toRat_add haw hbw]
    norm_num [GoFloat.toRat]
  have hspread : (((ask.price.add bid.price).div ⟨2, 1⟩).mul (pct.div ⟨100, 1⟩)).toRat =
      (ask.price.toRat + bid.price.toRat) / 2 * (pct.toRat / 100) := by
    rw [GoFloat.toRat_mul, hmid,
      GoFloat.toRat_div hpw (by norm_num [GoFloat.WF]) (by norm_num)]
    norm_num [GoFloat.toRat]
  refine ⟨?_, ?_, ?_, by decide, by decide, by norm_num [GoFloat.toRat], by norm_num [GoFloat.toRat]⟩
  · obtain ⟨s, l, b, a⟩ := book
    simp only at hb ha
    subst hb ha
    rfl
  · rw [GoFloat.toRat_sub hmw hsw, hmid, hspread]
  · rw [GoFloat.toRat_add hmw hsw, hmid, hspread]

/-- C1 witness: the book with best bid 9000 / best ask 9100, spread 1%,
tick `"0.01"`, quantity `"0.001"`. -/
theorem updateMarketState_quotes_witness :
    updateMarketState ⟨1, 1⟩ "0.01" "0.001" book9000 =
      Except.ok
        [⟨"BUY", "LIMIT", "8959.50", "0.001"⟩,
         ⟨"SELL", "LIMIT", "9140.50", "0.001"⟩] :=
  ((updateMarketState_quotes book9000 ⟨⟨9000, 1⟩, ⟨1, 1⟩⟩ ⟨⟨9100, 1⟩, ⟨1, 1⟩⟩ [] []
    ⟨1, 1⟩ "0.01" "0.001" rfl rfl Nat.one_pos Nat.one_pos Nat.one_pos).1).trans
    (by decide)

/-! ## C9 — parse failures in the order book payload (corrected)

The Go loop skips any textual row with at most one element (`continue`),
leaving a zero `PriceLevel` from the preallocated slice, so a malformed
one-element pair does *not* produce a parse error; the claim as stated
(quantifying over pairs of any length) is false. Rows with at least two
elements do fail the call when a price or quantity is unparsable.
-/

/-- C9 counterexample: a payload whose single bid "pair" `["abc"]` cannot be
parsed as a number, yet `parseOrderbook` succeeds, returning the zero level
instead of the parse error the claim requires. -/
theorem parseOrderbook_short_row_no_error :
    parseOrderbook { lastUpdateID := 1, bids := [["abc"]], asks := [["1", "2"]] } =
      Except.ok
        { symbol := "", lastUpdateID := 1,
          bids := [⟨⟨0, 1⟩, ⟨0, 1⟩⟩], asks := [⟨⟨1, 1⟩, ⟨2, 1⟩⟩] } ∧
    parseGoFloat "abc" = none := by
  decide

theorem parseLevelRows_ok_length (rows : List (List String))
    (ls : List PriceLevel) (h : parseLevelRows rows = Except.ok ls) :
    ls.length = rows.length := by
  induction rows generalizing ls with
  | nil => simp [parseLevelRows] at h; simp [← h]
  | cons row rest ih =>
    match hrow : row with
    | p :: q :: tl =>
      simp only [parseLevelRows] at h
      cases hp : parseGoFloat p with
      | none => rw [hp] at h; exact absurd h (by simp)
      | some price =>
        rw [hp] at h
        cases hq : parseGoFloat q with
        | none => rw [hq] at h; exact absurd h (by simp)
        | some qty =>
          rw [hq] at h
          cases hrest : parseLevelRows rest with
          | error e => rw [hrest] at h; exact absurd h (by simp)
          | ok levels =>
            rw [hrest] at h
            cases h
            simp [ih levels hrest]
    | [] =>
      simp only [parseLevelRows] at h
      cases hrest : parseLevelRows rest with
      | error e => rw [hrest] at h; exact absurd h (by simp)
      | ok levels =>
        rw [hrest] at h
        cases h
        simp [ih levels hrest]
    | [p] =>
      simp only [parseLevelRows] at h
      cases hrest : parseLevelRows rest with
      | error e => rw [hrest] at h; exact absurd h (by simp)
      | ok levels =>
        rw [hrest] at h
        cases h
        simp [ih levels hrest]

theorem parseLevelRows_error_iff (rows : List (List String)) :
    (∃ e, parseLevelRows rows = Except.error e) ↔
      (∃ row ∈ rows, ∃ p q rest, row = p :: q :: rest ∧
        (parseGoFloat p = none ∨ parseGoFloat q = none)) := by
  induction rows with
  | nil => simp [parseLevelRows]
  | cons row rest ih =>
    constructor
    · rintro ⟨e, he⟩
      match hrow : row with
      | p :: q :: tl =>
        subst hrow
        simp only [parseLevelRows] at he
        cases hp : parseGoFloat p with
        | none => exact ⟨p :: q :: tl, by simp, p, q, tl, rfl, Or.inl hp⟩
        | some price =>
          rw [hp] at he
          cases hq : parseGoFloat q with
          | none => exact ⟨p :: q :: tl, by simp, p, q, tl, rfl, Or.inr hq⟩
          | some qty =>
            rw [hq] at he
            cases hrest : parseLevelRows rest with
            | error e' =>
              obtain ⟨r, hr, w⟩ := ih.1 ⟨e', hrest⟩
              exact ⟨r, by simp [hr], w⟩
            | ok levels => rw [hrest] at he; exact absurd he (by simp)
      | [] =>
        subst hrow
        simp only [parseLevelRows] at he
        cases hrest : parseLevelRows rest with
        | error e' =>
          obtain ⟨r, hr, w⟩ := ih.1 ⟨e', hrest⟩
          exact ⟨r, by simp [hr], w⟩
        | ok levels => rw [hrest] at he; exact absurd he (by simp)
      | [p] =>
        subst hrow
        simp only [parseLevelRows] at he
        cases hrest : parseLevelRows rest with
        | error e' =>
          obtain ⟨r, hr, w⟩ := ih.1 ⟨e', hrest⟩
          exact ⟨r, by simp [hr], w⟩
        | ok levels => rw [hrest] at he; exact absurd he (by simp)
    · rintro ⟨r, hr, p, q, tl, hrpq, hbad⟩
      rcases List.mem_cons.1 hr with hr | hr
      · subst hr; subst hrpq
        rcases hbad with hbad | hbad
        · exact ⟨"invalid syntax", by simp [parseLevelRows, hbad]⟩
        · cases hp : parseGoFloat p with
          | none => exact ⟨"invalid syntax", by simp [parseLevelRows, hp]⟩
          | some price =>
            exact ⟨"invalid syntax", by simp [parseLevelRows, hp, hbad]⟩
      · obtain ⟨e', he'⟩ := ih.2 ⟨r, hr, p, q, tl, hrpq, hbad⟩
        match hrow : row with
        | p' :: q' :: tl' =>
          cases hp : parseGoFloat p' with
          | none => exact ⟨"invalid syntax", by simp [parseLevelRows, hp]⟩
          | some price =>
            cases hq : parseGoFloat q' with
            | none => exact ⟨"invalid syntax", by simp [parseLevelRows, hp, hq]⟩
            | some qty => exact ⟨e', by simp [parseLevelRows, hp, hq, he']⟩
        | [] => exact ⟨e', by simp [parseLevelRows, he']⟩
        | [p'] => exact ⟨e', by simp [parseLevelRows, he']⟩

/-- C9 amended: `parseOrderbook` fails with a parse error exactly when some
bid or ask row with at least two elements has a price or quantity that does
not parse as a number (rows with fewer than two elements are skipped and
yield a zero Price Level); on success the result carries one numeric Price
Level per textual row of the payload. -/
theorem parseOrderbook_error_and_lengths (data : OrderbookDepth) :
    ((∃ e, parseOrderbook data = Except.error e) ↔
      (∃ row ∈ data.bids ++ data.asks, ∃ p q rest, row = p :: q :: rest ∧
        (parseGoFloat p = none ∨ parseGoFloat q = none))) ∧
    (∀ res, parseOrderbook data = Except.ok res →
      res.bids.length = data.bids.length ∧ res.asks.length = data.asks.length) := by
  constructor
  · constructor
    · rintro ⟨e, he⟩
      simp only [parseOrderbook] at he
      cases hb : parseLevelRows data.bids with
      | error eb =>
        obtain ⟨r, hr, w⟩ := (parseLevelRows_error_iff data.bids).1 ⟨eb, hb⟩
        exact ⟨r, List.mem_append_left _ hr, w⟩
      | ok bids =>
        rw [hb] at he
        cases ha : parseLevelRows data.asks with
        | error ea =>
          obtain ⟨r, hr, w⟩ := (parseLevelRows_error_iff data.asks).1 ⟨ea, ha⟩
          exact ⟨r, List.mem_append_right _ hr, w⟩
        | ok asks => rw [ha] at he; exact absurd he (by simp)
    · rintro ⟨r, hr, w⟩
      rcases List.mem_append.1 hr with hr | hr
      · obtain ⟨e, he⟩ := (parseLevelRows_error_iff data.bids).2 ⟨r, hr, w⟩
        exact ⟨e, by simp [parseOrderbook, he]⟩
      · obtain ⟨e, he⟩ := (parseLevelRows_error_iff data.asks).2 ⟨r, hr, w⟩
        cases hb : parseLevelRows data.bids with
        | error eb => exact ⟨eb, by simp [parseOrderbook, hb]⟩
        | ok bids => exact ⟨e, by simp [parseOrderbook, hb, he]⟩
  · intro res hres
    simp only [parseOrderbook] at hres
    cases hb : parseLevelRows data.bids with
    | error eb => rw [hb] at hres; exact absurd hres (by simp)
    | ok bids =>
      rw [hb] at hres
      cases ha : parseLevelRows data.asks with
      | error ea => rw [ha] at hres; exact absurd hres (by simp)
      | ok asks =>
        rw [ha] at hres
        cases hres
        exact ⟨parseLevelRows_ok_length _ _ hb, parseLevelRows_ok_length _ _ ha⟩

/-! ## C5 — the exchange-id reachability invariant (corrected)

`UpdateOrder`'s client-id fallback overwrites the shared record with an
order carrying a different exchange id but never re-keys the exchange-id
map, so the claimed invariant is broken by a legal operation sequence.
Under consistency preconditions on track/update (`RegOpOk`: ids are never
re-keyed), the invariant — packaged with its companion properties as
`RegInv` — holds in every reachable state.
-/

theorem regInv_empty : RegInv Manager.new := by
  refine ⟨?_, ?_, ?_, ?_, ?_, rfl⟩ <;> intro _ _ h <;> simp [lookupA, Manager.new] at h

theorem regInv_track (m : Manager) (now : ℕ) (o : Order) (hinv : RegInv m)
    (h1 : ∀ ρ st, lookupA m.orders o.orderID = some ρ → lookupA m.heap ρ = some st →
      st.order.clientOrderID = o.clientOrderID)
    (h2 : ∀ ρ st, o.clientOrderID ≠ "" →
      lookupA m.clientOrders o.clientOrderID = some ρ →
      lookupA m.heap ρ = some st → st.order.orderID = o.orderID) :
    RegInv (trackOrder now o m) := by
  refine ⟨?_, ?_, ?_, ?_, ?_, ?_⟩
  · -- ordersHeap
    intro k ρ hk
    simp only [trackOrder] at hk ⊢
    by_cases hko : k = o.orderID
    · subst hko
      rw [lookupA_insertA_self] at hk
      obtain rfl := Option.some.inj hk
      refine ⟨⟨o, now, false⟩, lookupA_insertA_self _ _ _, rfl, ?_⟩
      intro hc
      simp only [ne_eq, hc, not_false_iff, if_true, ite_true]
      exact lookupA_insertA_self _ _ _
    · rw [lookupA_insertA_ne _ _ _ _ fun h => hko h.symm] at hk
      obtain ⟨st, hst, hstid, hstc⟩ := hinv.ordersHeap k ρ hk
      have hρlt : ρ < m.nextRef := hinv.ordersBound k ρ hk
      have hρne : m.nextRef ≠ ρ := by omega
      refine ⟨st, by rw [lookupA_insertA_ne _ _ _ _ hρne]; exact hst, hstid, ?_⟩
      intro hc
      have hold := hstc hc
      by_cases hoc : o.clientOrderID = ""
      · rw [if_neg (by simp [hoc])]
        exact hold
      · rw [if_pos (by simp [hoc])]
        by_cases hcc : st.order.clientOrderID = o.clientOrderID
        · exfalso
          have := h2 ρ st hoc (hcc ▸ hold) hst
          exact hko (hstid ▸ this ▸ rfl)
        · rw [lookupA_insertA_ne _ _ _ _ fun h => hcc h.symm]
          exact hold
  · -- clientHeap
    intro c ρ hc
    simp only [trackOrder] at hc ⊢
    by_cases hoc : o.clientOrderID = ""
    · rw [if_neg (by simp [hoc])] at hc
      obtain ⟨st, hst, hstc, hsto⟩ := hinv.clientHeap c ρ hc
      have hρlt : ρ < m.nextRef := hinv.clientBound c ρ hc
      have hρne : m.nextRef ≠ ρ := by omega
      have hcne : c ≠ "" := by
        intro hceq
        rw [hceq, hinv.noEmptyKey] at hc
        exact Option.noConfusion hc
      refine ⟨st, by rw [lookupA_insertA_ne _ _ _ _ hρne]; exact hst, hstc, ?_⟩
      by_cases hid : st.order.orderID = o.orderID
      · exfalso
        have := h1 ρ st (hid ▸ hsto) hst
        apply hcne
        rw [← hstc, this, hoc]
      · rw [lookupA_insertA_ne _ _ _ _ fun h => hid h.symm]
        exact hsto
    · rw [if_pos (by simp [hoc])] at hc
      by_cases hcoc : c = o.clientOrderID
      · subst hcoc
        rw [lookupA_insertA_self] at hc
        obtain rfl := Option.some.inj hc
        refine ⟨⟨o, now, false⟩, lookupA_insertA_self _ _ _, rfl, ?_⟩
        rw [lookupA_insertA_self]
      · rw [lookupA_insertA_ne _ _ _ _ fun h => hcoc h.symm] at hc
        obtain ⟨st, hst, hstc, hsto⟩ := hinv.clientHeap c ρ hc
        have hρlt : ρ < m.nextRef := hinv.clientBound c ρ hc
        have hρne : m.nextRef ≠ ρ := by omega
        refine ⟨st, by rw [lookupA_insertA_ne _ _ _ _ hρne]; exact hst, hstc, ?_⟩
        by_cases hid : st.order.orderID = o.orderID
        · exfalso
          have := h1 ρ st (hid ▸ hsto) hst
          exact hcoc (hstc ▸ this ▸ rfl)
        · rw [lookupA_insertA_ne _ _ _ _ fun h => hid h.symm]
          exact hsto
  · -- ordersBound
    intro k ρ hk
    simp only [trackOrder] at hk ⊢
    by_cases hko : k = o.orderID
    · subst hko
      rw [lookupA_insertA_self] at hk
      obtain rfl := Option.some.inj hk
      omega
    · rw [lookupA_insertA_ne _ _ _ _ fun h => hko h.symm] at hk
      have := hinv.ordersBound k ρ hk
      omega
  · -- clientBound
    intro c ρ hc
    simp only [trackOrder] at hc ⊢
    by_cases hoc : o.clientOrderID = ""
    · rw [if_neg (by simp [hoc])] at hc
      have := hinv.clientBound c ρ hc
      omega
    · rw [if_pos (by simp [hoc])] at hc
      by_cases hcoc : c = o.clientOrderID
      · subst hcoc
        rw [lookupA_insertA_self] at hc
        obtain rfl := Option.some.inj hc
        omega
      · rw [lookupA_insertA_ne _ _ _ _ fun h => hcoc h.symm] at hc
        have := hinv.clientBound c ρ hc
        omega
  · -- heapBound
    intro ρ st h
    simp only [trackOrder] at h ⊢
    by_cases hρ : ρ = m.nextRef
    · omega
    · rw [lookupA_insertA_ne _ _ _ _ fun h' => hρ h'.symm] at h
      have := hinv.heapBound ρ st h
      omega
  · -- noEmptyKey
    simp only [trackOrder]
    by_cases hoc : o.clientOrderID = ""
    · rw [if_neg (by simp [hoc])]
      exact hinv.noEmptyKey
    · rw [if_pos (by simp [hoc])]
      rw [lookupA_insertA_ne _ _ _ _ hoc]
      exact hinv.noEmptyKey

theorem regInv_update (m : Manager) (now : ℕ) (o : Order) (hinv : RegInv m)
    (hok : ∀ ρ st, (lookupA m.orders o.orderID = some ρ ∨
        (lookupA m.orders o.orderID = none ∧
          lookupA m.clientOrders o.clientOrderID = some ρ)) →
      lookupA m.heap ρ = some st →
      st.order.orderID = o.orderID ∧ st.order.clientOrderID = o.clientOrderID) :
    RegInv (updateOrder now o m).2 := by
  cases hfound : lookupA m.orders o.orderID with
  | some ρ =>
    obtain ⟨stOld, hstOld, hidOld, hcOld⟩ := hinv.ordersHeap o.orderID ρ hfound
    obtain ⟨_, hcEq⟩ := hok ρ stOld (Or.inl hfound) hstOld
    simp only [updateOrder, hfound]
    refine ⟨?_, ?_, ?_, ?_, ?_, hinv.noEmptyKey⟩
    · intro k ρk hk
      obtain ⟨stk, hstk, hidk, hck⟩ := hinv.ordersHeap k ρk hk
      by_cases hρeq : ρk = ρ
      · subst hρeq
        obtain rfl : stk = stOld := Option.some.inj (hstk.symm.trans hstOld)
        refine ⟨⟨o, now, true⟩, lookupA_insertA_self _ _ _, hidk ▸ hidOld.symm ▸ rfl, ?_⟩
        intro hc
        have := hcOld (hcEq ▸ hc)
        rw [hcEq] at this
        exact this
      · refine ⟨stk, ?_, hidk, hck⟩
        rw [lookupA_insertA_ne _ _ _ _ fun h => hρeq h.symm]
        exact hstk
    · intro c ρc hc
      obtain ⟨stc, hstc, hcc, hco⟩ := hinv.clientHeap c ρc hc
      by_cases hρeq : ρc = ρ
      · subst hρeq
        obtain rfl : stc = stOld := Option.some.inj (hstc.symm.trans hstOld)
        refine ⟨⟨o, now, true⟩, lookupA_insertA_self _ _ _, ?_, ?_⟩
        · show o.clientOrderID = c
          rw [← hcEq, hcc]
        · show lookupA m.orders o.orderID = some ρc
          exact hfound
      · refine ⟨stc, ?_, hcc, hco⟩
        rw [lookupA_insertA_ne _ _ _ _ fun h => hρeq h.symm]
        exact hstc
    · exact hinv.ordersBound
    · exact hinv.clientBound
    · intro ρh sth hh
      by_cases hρeq : ρh = ρ
      · subst hρeq
        exact hinv.heapBound ρh stOld hstOld
      · rw [lookupA_insertA_ne _ _ _ _ fun h => hρeq h.symm] at hh
        exact hinv.heapBound ρh sth hh
  | none =>
    cases hcfound : lookupA m.clientOrders o.clientOrderID with
    | some ρ =>
      exfalso
      obtain ⟨st, hst, hstc, hsto⟩ := hinv.clientHeap o.clientOrderID ρ hcfound
      have hid := (hok ρ st (Or.inr ⟨hfound, hcfound⟩) hst).1
      rw [hid] at hsto
      rw [hfound] at hsto
      exact Option.noConfusion hsto
    | none =>
      simp only [updateOrder, hfound, hcfound]
      exact hinv

theorem lookupA_eraseA_none_of_none {κ ν : Type} [DecidableEq κ]
    (l : List (κ × ν)) (k k' : κ) (h : lookupA l k' = none) :
    lookupA (eraseA l k) k' = none := by
  by_cases hk : k = k'
  · subst hk; exact lookupA_eraseA_self _ _
  · rw [lookupA_eraseA_ne _ _ _ hk]; exact h

theorem regInv_remove (m : Manager) (orderID : Int) (hinv : RegInv m) :
    RegInv (removeOrder orderID m).2 := by
  cases hget : getOrder m orderID with
  | error e =>
    simp only [removeOrder, hget]
    exact hinv
  | ok order =>
    have hex : ∃ ρ st, lookupA m.orders orderID = some ρ ∧
        lookupA m.heap ρ = some st ∧ st.order = order := by
      cases ho : lookupA m.orders orderID with
      | none => simp [getOrder, ho] at hget
      | some ρ =>
        cases hh : lookupA m.heap ρ with
        | none => simp [getOrder, ho, hh] at hget
        | some st =>
          simp only [getOrder, ho, hh] at hget
          exact ⟨ρ, st, rfl, hh, Except.ok.inj hget⟩
    obtain ⟨ρ, st, hρ, hst, horder⟩ := hex
    obtain ⟨st', hst', hstid', hstc'0⟩ := hinv.ordersHeap orderID ρ hρ
    have hEq : st' = st := Option.some.inj (hst'.symm.trans hst)
    have hstid : st.order.orderID = orderID := hEq ▸ hstid'
    have hstc : st.order.clientOrderID ≠ "" →
        lookupA m.clientOrders st.order.clientOrderID = some ρ := hEq ▸ hstc'0
    simp only [removeOrder, hget]
    refine ⟨?_, ?_, ?_, ?_, hinv.heapBound, ?_⟩
    · intro k ρk hk
      simp only at hk
      by_cases hkid : orderID = k
      · subst hkid
        rw [lookupA_eraseA_self] at hk
        exact Option.noConfusion hk
      · rw [lookupA_eraseA_ne _ _ _ hkid] at hk
        obtain ⟨stk, hstk, hidk, hck⟩ := hinv.ordersHeap k ρk hk
        refine ⟨stk, hstk, hidk, ?_⟩
        intro hc
        have hold := hck hc
        by_cases hoc : order.clientOrderID = ""
        · rw [if_neg (by simp [hoc])]
          exact hold
        · rw [if_pos (by simp [hoc])]
          by_cases hcc : order.clientOrderID = stk.order.clientOrderID
          · exfalso
            have h₁ : lookupA m.clientOrders order.clientOrderID = some ρ := by
              have := hstc (by rw [horder]; exact hoc)
              rw [horder] at this
              exact this
            rw [hcc] at h₁
            have hρeq : ρ = ρk := Option.some.inj (h₁.symm.trans hold)
            have hstkEq : stk = st := by
              rw [← hρeq] at hstk
              exact Option.some.inj (hstk.symm.trans hst)
            apply hkid
            rw [← hstid, ← hstkEq]
            exact hidk
          · rw [lookupA_eraseA_ne _ _ _ hcc]
            exact hold
    · intro c ρc hc
      simp only at hc
      have hc' : lookupA m.clientOrders c = some ρc := by
        by_cases hoc : order.clientOrderID = ""
        · rw [if_neg (by simp [hoc])] at hc
          exact hc
        · rw [if_pos (by simp [hoc])] at hc
          by_cases hcc : order.clientOrderID = c
          · rw [← hcc, lookupA_eraseA_self] at hc
            exact Option.noConfusion hc
          · rw [lookupA_eraseA_ne _ _ _ hcc] at hc
            exact hc
      obtain ⟨stc, hstc', hccc, hcoo⟩ := hinv.clientHeap c ρc hc'
      refine ⟨stc, hstc', hccc, ?_⟩
      by_cases hid : orderID = stc.order.orderID
      · exfalso
        rw [← hid] at hcoo
        have hρeq : ρ = ρc := Option.some.inj (hρ.symm.trans hcoo)
        have hstcEq : stc = st := by
          rw [← hρeq] at hstc'
          exact Option.some.inj (hstc'.symm.trans hst)
        -- the record is filed under `c` and was just looked up by `orderID`:
        -- its client binding must have been erased, contradiction
        have hoc : order.clientOrderID ≠ "" := by
          intro h0
          have hc0 : stc.order.clientOrderID = "" := by rw [hstcEq, horder, h0]
          rw [hc0] at hccc
          rw [← hccc] at hc'
          rw [hinv.noEmptyKey] at hc'
          exact Option.noConfusion hc'
        have hcc : order.clientOrderID = c := by
          rw [← horder, ← hstcEq]
          exact hccc
        rw [if_pos (by simp [hoc])] at hc
        rw [hcc, lookupA_eraseA_self] at hc
        exact Option.noConfusion hc
      · rw [lookupA_eraseA_ne _ _ _ hid]
        exact hcoo
    · intro k ρk hk
      simp only at hk
      by_cases hkid : orderID = k
      · subst hkid
        rw [lookupA_eraseA_self] at hk
        exact Option.noConfusion hk
      · rw [lookupA_eraseA_ne _ _ _ hkid] at hk
        exact hinv.ordersBound k ρk hk
    · intro c ρc hc
      simp only at hc
      have hc' : lookupA m.clientOrders c = some ρc := by
        by_cases hoc : order.clientOrderID = ""
        · rw [if_neg (by simp [hoc])] at hc
          exact hc
        · rw [if_pos (by simp [hoc])] at hc
          by_cases hcc : order.clientOrderID = c
          · rw [← hcc, lookupA_eraseA_self] at hc
            exact Option.noConfusion hc
          · rw [lookupA_eraseA_ne _ _ _ hcc] at hc
            exact hc
      exact hinv.clientBound c ρc hc'
    · simp only
      by_cases hoc : order.clientOrderID = ""
      · rw [if_neg (by simp [hoc])]
        exact hinv.noEmptyKey
      · rw [if_pos (by simp [hoc])]
        exact lookupA_eraseA_none_of_none _ _ _ hinv.noEmptyKey

theorem regInv_preserved (m : Manager) (op : RegOp) (hinv : RegInv m)
    (hok : RegOpOk m op) : RegInv (applyRegOp m op) := by
  cases op with
  | track now o => exact regInv_track m now o hinv hok.1 fun ρ st hne hcl hh => hok.2 ρ st hne hcl hh
  | update now o => exact regInv_update m now o hinv hok
  | remove orderID => exact regInv_remove m orderID hinv

/-- C5 counterexample: track `{OrderID=1, ClientOrderID="c"}`, then update
`{OrderID=2, ClientOrderID="c"}`. The update succeeds through the client-id
fallback and overwrites the shared record in place, after which the order
reachable via the client-id map carries the known exchange id 2 but is not
reachable via the exchange-id map under 2 — the claimed invariant fails in a
reachable state, broken by a registry operation. -/
theorem updateFallback_breaks_exchange_reachability :
    (updateOrder 1 c5OrderB (trackOrder 0 c5OrderA Manager.new)).1 = Except.ok () ∧
    lookupA (updateOrder 1 c5OrderB (trackOrder 0 c5OrderA Manager.new)).2.clientOrders
      "c" = some 0 ∧
    ((lookupA (updateOrder 1 c5OrderB (trackOrder 0 c5OrderA Manager.new)).2.heap 0).map
      fun st => st.order.orderID) = some 2 ∧
    lookupA (updateOrder 1 c5OrderB (trackOrder 0 c5OrderA Manager.new)).2.orders 2 =
      none := by
  decide

/-- C5 amended: in every registry state reachable by operations that never
re-key an existing record (a re-track of an exchange id keeps its client id
and vice versa; an update carries the same ids as the record it refreshes —
the precondition `RegOpOk`), every order reachable via the client-id map is
also reachable via the exchange-id map under its recorded exchange id
(`RegInv.clientHeap`), and this invariant is preserved by every registry
operation under those preconditions. Without them, `update`'s fallback path
(and a re-track under a new client id) breaks the invariant. -/
theorem registry_invariant_reachable (m : Manager) (h : ReachableOk m) : RegInv m := by
  induction h with
  | new => exact regInv_empty
  | step _ hok ih => exact regInv_preserved _ _ ih hok

/-- C5 witness: the invariant holds in the concrete state that tracks the
single order `c7Order`. -/
theorem registry_invariant_reachable_witness :
    RegInv (trackOrder 0 c7Order Manager.new) :=
  registry_invariant_reachable _
    (@ReachableOk.step Manager.new (RegOp.track 0 c7Order) ReachableOk.new
      (by
        refine ⟨?_, ?_⟩
        · intro ρ st h _
          simp [lookupA, Manager.new] at h
        · intro ρ st _ h _
          simp [lookupA, Manager.new] at h))

/-! ## C3 — signature canonicalization and insertion-order independence -/

theorem charListLE_total : ∀ xs ys : List Char,
    charListLE xs ys = true ∨ charListLE ys xs = true := by
  intro xs
  induction xs with
  | nil => intro ys; exact Or.inl rfl
  | cons a as ih =>
    intro ys
    cases ys with
    | nil => exact Or.inr rfl
    | cons b bs =>
      rcases Nat.lt_trichotomy a.toNat b.toNat with h | h | h
      · left; simp [charListLE, h]
      · rcases ih bs with h' | h' <;>
          simp [charListLE, h, Nat.lt_irrefl, h']
      · right; simp [charListLE, h, Nat.lt_asymm h]

theorem charListLE_trans : ∀ xs ys zs : List Char,
    charListLE xs ys = true → charListLE ys zs = true → charListLE xs zs = true := by
  intro xs
  induction xs with
  | nil => intro ys zs _ _; rfl
  | cons a as ih =>
    intro ys zs h₁ h₂
    cases ys with
    | nil => simp [charListLE] at h₁
    | cons b bs =>
      cases zs with
      | nil => simp [charListLE] at h₂
      | cons c cs =>
        simp only [charListLE] at h₁ h₂ ⊢
        by_cases hab : a.toNat < b.toNat
        · by_cases hbc : b.toNat < c.toNat
          · simp [show a.toNat < c.toNat from hab.trans hbc]
          · by_cases hcb : c.toNat < b.toNat
            · simp [hbc, hcb] at h₂
            · simp [show a.toNat < c.toNat by omega]
        · by_cases hba : b.toNat < a.toNat
          · simp [hab, hba] at h₁
          · simp only [hab, hba, if_false, if_neg] at h₁
            by_cases hbc : b.toNat < c.toNat
            · simp [show a.toNat < c.toNat by omega]
            · by_cases hcb : c.toNat < b.toNat
              · simp [hbc, hcb] at h₂
              · simp only [hbc, hcb, if_false, if_neg] at h₂
                have hn₁ : ¬ a.toNat < c.toNat := by omega
                have hn₂ : ¬ c.toNat < a.toNat := by omega
                simp only [hn₁, hn₂, if_false, if_neg]
                exact ih bs cs h₁ h₂

theorem charToNat_inj {a b : Char} (h : a.toNat = b.toNat) : a = b := by
  have hv : a.val = b.val := by
    apply UInt32.ext
    exact h
  exact Char.ext hv

theorem charListLE_antisymm : ∀ xs ys : List Char,
    charListLE xs ys = true → charListLE ys xs = true → xs = ys := by
  intro xs
  induction xs with
  | nil =>
    intro ys _ h₂
    cases ys with
    | nil => rfl
    | cons b bs => simp [charListLE] at h₂
  | cons a as ih =>
    intro ys h₁ h₂
    cases ys with
    | nil => simp [charListLE] at h₁
    | cons b bs =>
      simp only [charListLE] at h₁ h₂
      rcases Nat.lt_trichotomy a.toNat b.toNat with h | h | h
      · simp [h, Nat.lt_asymm h] at h₂
      · have hne₁ : ¬ a.toNat < b.toNat := by omega
        have hne₂ : ¬ b.toNat < a.toNat := by omega
        simp [hne₁, hne₂] at h₁ h₂
        rw [charToNat_inj h, ih bs h₁ h₂]
      · simp [h, Nat.lt_asymm h] at h₁

theorem string_data_inj {a b : String} (h : a.data = b.data) : a = b :=
  congrArg String.mk h

instance : IsTotal (String × String) paramLE :=
  ⟨fun a b => charListLE_total a.1.data b.1.data⟩

instance : IsTrans (String × String) paramLE :=
  ⟨fun _ _ _ h₁ h₂ => charListLE_trans _ _ _ h₁ h₂⟩

theorem paramLE_key_antisymm {a b : String × String}
    (h₁ : paramLE a b) (h₂ : paramLE b a) : a.1 = b.1 :=
  string_data_inj (charListLE_antisymm _ _ h₁ h₂)

/-- Two sorted pair lists that are permutations of each other and have
pairwise-distinct keys are equal. -/
theorem sorted_perm_nodup_keys_eq : ∀ {l₁ l₂ : List (String × String)},
    l₁.Sorted paramLE → l₂.Sorted paramLE → l₁.Perm l₂ →
    (l₂.map Prod.fst).Nodup → l₁ = l₂ := by
  intro l₁
  induction l₁ with
  | nil =>
    intro l₂ _ _ hperm _
    exact (hperm.nil_eq).symm ▸ rfl
  | cons h₁ t₁ ih =>
    intro l₂ hs₁ hs₂ hperm hnd
    cases l₂ with
    | nil => exact absurd hperm.symm.nil_eq (by simp)
    | cons h₂ t₂ =>
      by_cases heq : h₁ = h₂
      · subst heq
        have ht : t₁.Perm t₂ := hperm.cons_inv
        rw [ih (List.Sorted.of_cons hs₁) (List.Sorted.of_cons hs₂) ht
          (by simpa using (List.Nodup.of_cons hnd))]
      · have hmem₁ : h₁ ∈ h₂ :: t₂ := hperm.subset (List.mem_cons_self _ _)
        have hmem₁' : h₁ ∈ t₂ := by
          rcases List.mem_cons.1 hmem₁ with h | h
          · exact absurd h heq
          · exact h
        have hmem₂ : h₂ ∈ h₁ :: t₁ := hperm.symm.subset (List.mem_cons_self _ _)
        have hmem₂' : h₂ ∈ t₁ := by
          rcases List.mem_cons.1 hmem₂ with h | h
          · exact absurd h.symm heq
          · exact h
        have hle₁ : paramLE h₁ h₂ := List.rel_of_sorted_cons hs₁ _ hmem₂'
        have hle₂ : paramLE h₂ h₁ := List.rel_of_sorted_cons hs₂ _ hmem₁'
        have hkey : h₁.1 = h₂.1 := paramLE_key_antisymm hle₁ hle₂
        have : h₂.1 ∉ t₂.map Prod.fst := by
          simpa using (List.nodup_cons.1 hnd).1
        exact absurd (hkey ▸ List.mem_map_of_mem Prod.fst hmem₁') this

/-- C3: `GenerateSignature` equals the lowercase hex HMAC-SHA256 digest over
the canonical string built by sorting the parameters by key ascending and
joining them as `key=value` pairs with `&`; consequently it depends only on
the set of key/value pairs: two parameter lists with the same pairs in
different insertion order (distinct keys, as in a Go map) yield identical
signatures. -/
theorem generateSignature_canonical_order_independent
    (secretKey : String) (ps₁ ps₂ : List (String × String))
    (hperm : ps₁.Perm ps₂) (hnodup : (ps₁.map Prod.fst).Nodup) :
    GenerateSignature secretKey ps₁ =
      GenerateHMAC secretKey (signaturePayload ps₁) ∧
    GenerateSignature secretKey ps₁ = GenerateSignature secretKey ps₂ := by
  refine ⟨rfl, ?_⟩
  have hsort : List.insertionSort paramLE ps₁ = List.insertionSort paramLE ps₂ := by
    apply sorted_perm_nodup_keys_eq
      (List.sorted_insertionSort paramLE ps₁)
      (List.sorted_insertionSort paramLE ps₂)
    · exact ((List.perm_insertionSort paramLE ps₁).trans hperm).trans
        (List.perm_insertionSort paramLE ps₂).symm
    · have h₁ : (List.insertionSort paramLE ps₂).Perm ps₂ :=
        List.perm_insertionSort paramLE ps₂
      have h₂ : ((List.insertionSort paramLE ps₂).map Prod.fst).Perm
          (ps₂.map Prod.fst) := h₁.map Prod.fst
      have h₃ : (ps₂.map Prod.fst).Nodup :=
        (hperm.map Prod.fst).nodup_iff.1 hnodup
      exact h₂.nodup_iff.2 h₃
  unfold GenerateSignature signaturePayload
  rw [hsort]

/-- C3 witness: the repository's own multi-parameter test vector, in two
insertion orders. -/
theorem generateSignature_canonical_order_independent_witness :
    GenerateSignature "key" [("b", "value2"), ("a", "value1"), ("c", "value3")] =
      GenerateSignature "key" [("a", "value1"), ("c", "value3"), ("b", "value2")] :=
  (generateSignature_canonical_order_independent "key"
    [("b", "value2"), ("a", "value1"), ("c", "value3")]
    [("a", "value1"), ("c", "value3"), ("b", "value2")]
    (by decide) (by decide)).2

/-- Validation of the HMAC-SHA256 model against the repository's test
vectors (`TestGenerateHMAC`, `TestGenerateSignature`). -/
theorem generateHMAC_matches_test_vectors :
    GenerateHMAC "" "" =
      "b613679a0814d9ec772f95d778c35fc5ff1697c493715653c6c712144292c5ad" ∧
    GenerateHMAC "key" "data" =
      "5031fe3d989c6d1537a013fa6e739da23463fdaec3b70137d828e36ace221bd0" ∧
    GenerateSignature "key" [] =
      "5d5d139563c95b5967b9bd9a8c9b233a9dedb45072794cd232dc1b74832607d0" ∧
    GenerateSignature "key" [("b", "value2"), ("a", "value1"), ("c", "value3")] =
      "d148ef9c3276250afc3eb069a258457c5bca3ba9006d128abf76eb759ee2a0d6" := by
  refine ⟨by decide, by decide, by decide, by decide⟩

/-! ## C2 — FormatPrice: digit count and nearest-multiple quantization

The lemmas below establish, over the exact model: the decimal digit-string
round trip (`natDigitsStr`/`digitsToNat`), parsing of a fixed-point rendering
(`parseGoFloat_formatFixed`), the value of a `decimalRep` witness, the
fractional-digit count of the `%g` rendering in its plain-notation regime,
and the ties-away-from-zero nearest-integer property of `math.Round`.
-/

theorem digitVal_digitChar {d : ℕ} (h : d < 10) : digitVal (digitChar d) = d := by
  interval_cases d <;> decide

theorem digitChar_isDigit {d : ℕ} (h : d < 10) : (digitChar d).isDigit = true := by
  interval_cases d <;> decide

theorem digitsToNat_foldl_init (l : List Char) (a : ℕ) :
    l.foldl (fun b c => 10 * b + digitVal c) a = a * 10 ^ l.length + digitsToNat l := by
  induction l generalizing a with
  | nil => simp [digitsToNat]
  | cons c t ih =>
    simp only [List.foldl_cons, List.length_cons, digitsToNat]
    rw [ih (10 * a + digitVal c), ih (10 * 0 + digitVal c)]
    ring

theorem digitsToNat_append (l₁ l₂ : List Char) :
    digitsToNat (l₁ ++ l₂) = digitsToNat l₁ * 10 ^ l₂.length + digitsToNat l₂ := by
  simp only [digitsToNat, List.foldl_append]
  rw [digitsToNat_foldl_init]
  rfl

theorem natDigitsRev_lt10 : ∀ f n d, d ∈ natDigitsRev f n → d < 10
  | 0, _, d, h => by simp [natDigitsRev] at h
  | f + 1, 0, d, h => by simp [natDigitsRev] at h
  | f + 1, n + 1, d, h => by
    simp only [natDigitsRev, List.mem_cons] at h
    rcases h with h | h
    · subst h; exact Nat.mod_lt _ (by norm_num)
    · exact natDigitsRev_lt10 f _ d h

theorem natDigitsRev_val : ∀ f n, n ≤ f →
    digitsToNat ((natDigitsRev f n).reverse.map digitChar) = n
  | 0, n, h => by
    interval_cases n
    simp [natDigitsRev, digitsToNat]
  | f + 1, 0, _ => by simp [natDigitsRev, digitsToNat]
  | f + 1, n + 1, h => by
    simp only [natDigitsRev, List.reverse_cons, List.map_append, List.map_cons,
      List.map_nil]
    rw [digitsToNat_append]
    rw [natDigitsRev_val f ((n + 1) / 10) (by omega)]
    have h10 : (n + 1) % 10 < 10 := Nat.mod_lt _ (by norm_num)
    simp only [digitsToNat, List.foldl_cons, List.foldl_nil, List.length_cons,
      List.length_nil, pow_one, Nat.mul_zero, Nat.zero_add]
    rw [digitVal_digitChar h10]
    omega

theorem natDigitsStr_val (n : ℕ) : digitsToNat (natDigitsStr n) = n := by
  by_cases h : n = 0
  · subst h; decide
  · simp only [natDigitsStr, if_neg h]
    exact natDigitsRev_val n n le_rfl

theorem natDigitsStr_isDigit (n : ℕ) : ∀ c ∈ natDigitsStr n, c.isDigit = true := by
  by_cases h : n = 0
  · subst h; decide
  · simp only [natDigitsStr, if_neg h]
    intro c hc
    obtain ⟨d, hd, rfl⟩ := List.mem_map.1 hc
    exact digitChar_isDigit (natDigitsRev_lt10 n n d (List.mem_reverse.1 hd))

theorem natDigitsStr_ne_nil (n : ℕ) : natDigitsStr n ≠ [] := by
  by_cases h : n = 0
  · subst h; decide
  · simp only [natDigitsStr, if_neg h]
    intro hnil
    have : digitsToNat ((natDigitsRev n n).reverse.map digitChar) = n :=
      natDigitsRev_val n n le_rfl
    rw [hnil] at this
    exact h this.symm

theorem isDigit_ne_dot {c : Char} (h : c.isDigit = true) : c ≠ '.' := by
  intro hc
  subst hc
  simp [Char.isDigit] at h

theorem natDigitsRev_length_le : ∀ f n N, n ≤ f → n < 10 ^ N →
    (natDigitsRev f n).length ≤ N
  | 0, n, N, h, _ => by
    interval_cases n
    simp [natDigitsRev]
  | f + 1, 0, N, _, _ => by simp [natDigitsRev]
  | f + 1, n + 1, N, h, hN => by
    have hN1 : N ≠ 0 := by
      intro h0
      subst h0
      rw [pow_zero] at hN
      omega
    obtain ⟨M, rfl⟩ := Nat.exists_eq_succ_of_ne_zero hN1
    simp only [natDigitsRev, List.length_cons]
    have : (n + 1) / 10 < 10 ^ M := by
      rw [Nat.div_lt_iff_lt_mul (by norm_num : (0:ℕ) < 10)]
      calc n + 1 < 10 ^ (M + 1) := hN
      _ = 10 ^ M * 10 := by ring
    exact Nat.succ_le_succ (natDigitsRev_length_le f ((n + 1) / 10) M (by omega) this)

theorem natDigitsStr_length_le {n N : ℕ} (hN : 0 < N) (h : n < 10 ^ N) :
    (natDigitsStr n).length ≤ N := by
  by_cases h0 : n = 0
  · subst h0; simpa [natDigitsStr] using hN
  · simp only [natDigitsStr, if_neg h0, List.length_map, List.length_reverse]
    exact natDigitsRev_length_le n n N le_rfl h

theorem padLeftZeros_length {n : ℕ} {cs : List Char} (h : cs.length ≤ n) :
    (padLeftZeros n cs).length = n := by
  simp [padLeftZeros]
  omega

theorem digitsToNat_replicate_zero (k : ℕ) :
    digitsToNat (List.replicate k '0') = 0 := by
  induction k with
  | zero => decide
  | succ m ih =>
    simp only [List.replicate_succ, digitsToNat, List.foldl_cons] at *
    simpa using ih

theorem padLeftZeros_val (n : ℕ) (cs : List Char) :
    digitsToNat (padLeftZeros n cs) = digitsToNat cs := by
  simp only [padLeftZeros, digitsToNat_append, digitsToNat_replicate_zero]
  ring

theorem padLeftZeros_isDigit {n : ℕ} {cs : List Char}
    (h : ∀ c ∈ cs, c.isDigit = true) : ∀ c ∈ padLeftZeros n cs, c.isDigit = true := by
  intro c hc
  rcases List.mem_append.1 hc with hc | hc
  · rw [List.eq_of_mem_replicate hc]; decide
  · exact h c hc

theorem takeWhile_all {p : Char → Bool} : ∀ {l : List Char},
    (∀ c ∈ l, p c = true) → (l.takeWhile p = l ∧ l.dropWhile p = [])
  | [], _ => ⟨rfl, rfl⟩
  | c :: t, h => by
    have hc : p c = true := h c (List.mem_cons_self c t)
    have ht := takeWhile_all (fun d hd => h d (List.mem_cons_of_mem c hd))
    simp [List.takeWhile_cons, List.dropWhile_cons, hc, ht.1, ht.2]

theorem takeWhile_append_stop {p : Char → Bool} : ∀ (l₁ : List Char) {b : Char}
    (l₂ : List Char), (∀ c ∈ l₁, p c = true) → p b = false →
    ((l₁ ++ b :: l₂).takeWhile p = l₁ ∧ (l₁ ++ b :: l₂).dropWhile p = b :: l₂)
  | [], b, l₂, _, hb => by simp [List.takeWhile_cons, List.dropWhile_cons, hb]
  | c :: t, b, l₂, h, hb => by
    have hc : p c = true := h c (List.mem_cons_self c t)
    have ht := takeWhile_append_stop t l₂ (fun d hd => h d (List.mem_cons_of_mem c hd)) hb
    simp [List.takeWhile_cons, List.dropWhile_cons, hc, ht.1, ht.2]

theorem span_all {p : Char → Bool} {l : List Char} (h : ∀ c ∈ l, p c = true) :
    l.span p = (l, []) := by
  rw [List.span_eq_take_drop, (takeWhile_all h).1, (takeWhile_all h).2]

theorem span_append_stop {p : Char → Bool} (l₁ : List Char) {b : Char} (l₂ : List Char)
    (h : ∀ c ∈ l₁, p c = true) (hb : p b = false) :
    (l₁ ++ b :: l₂).span p = (l₁, b :: l₂) := by
  rw [List.span_eq_take_drop, (takeWhile_append_stop l₁ l₂ h hb).1,
    (takeWhile_append_stop l₁ l₂ h hb).2]

theorem GoFloat.blt_iff {x y : GoFloat} (hx : x.WF) (hy : y.WF) :
    (x.blt y = true) ↔ x.toRat < y.toRat := by
  rw [GoFloat.blt, decide_eq_true_eq, GoFloat.toRat, GoFloat.toRat,
    div_lt_div_iff (by exact_mod_cast hx) (by exact_mod_cast hy)]
  constructor
  · intro h; exact_mod_cast h
  · intro h; exact_mod_cast h

theorem GoFloat.floor_bounds {x : GoFloat} (hx : x.WF) :
    (x.floor : ℚ) ≤ x.toRat ∧ x.toRat < x.floor + 1 := by
  have hb : (0 : ℤ) < (x.den : ℤ) := by exact_mod_cast hx
  have hfd : x.floor = x.num / (x.den : ℤ) := Int.fdiv_eq_ediv _ (le_of_lt hb)
  have h1 := Int.ediv_add_emod x.num (x.den : ℤ)
  have h2 := Int.emod_nonneg x.num (ne_of_gt hb)
  have h3 := Int.emod_lt_of_pos x.num hb
  have hz1 : x.num / (x.den : ℤ) * (x.den : ℤ) ≤ x.num := by linarith
  have hz2 : x.num < (x.num / (x.den : ℤ) + 1) * (x.den : ℤ) := by linarith
  have hden : (0 : ℚ) < (x.den : ℚ) := by exact_mod_cast hx
  constructor
  · rw [GoFloat.toRat, le_div_iff hden, hfd]
    exact_mod_cast hz1
  · rw [GoFloat.toRat, div_lt_iff hden, hfd]
    exact_mod_cast hz2

theorem roundHalfEven_mem (q : GoFloat) :
    roundHalfEven q = q.floor ∨ roundHalfEven q = q.floor + 1 := by
  simp only [roundHalfEven]
  split_ifs <;> simp

theorem roundHalfEven_intV {q : GoFloat} (hq : q.WF) {z : ℤ} (h : q.toRat = z) :
    roundHalfEven q = z := by
  have hb := GoFloat.floor_bounds hq
  have hf : q.floor = z := by
    rw [h] at hb
    have h1 : q.floor ≤ z := by exact_mod_cast hb.1
    have h2 : (z : ℚ) < q.floor + 1 := hb.2
    have h2' : z < q.floor + 1 := by exact_mod_cast h2
    omega
  have hWF1 : (GoFloat.mk z 1).WF := by norm_num [GoFloat.WF]
  have hWFr : (q.sub ⟨q.floor, 1⟩).WF := by
    rw [hf]; exact GoFloat.WF.sub hq hWF1
  have hr : (q.sub ⟨q.floor, 1⟩).toRat = 0 := by
    rw [hf, GoFloat.toRat_sub hq hWF1, h]
    simp [GoFloat.toRat]
  have hblt : (q.sub ⟨q.floor, 1⟩).blt ⟨1, 2⟩ = true := by
    rw [GoFloat.blt_iff hWFr (by norm_num [GoFloat.WF]), hr]
    norm_num [GoFloat.toRat]
  simp only [roundHalfEven]
  rw [hblt]
  simpa using hf

theorem round_abs_key (X : ℚ) (k : ℤ)
    (h1 : -(1 / 2) ≤ X - k) (h2 : X - k ≤ 1 / 2)
    (h3 : |X - (k : ℚ)| = 1 / 2 → |X| < |(k : ℚ)|) :
    |X - (k : ℚ)| ≤ 1 / 2 ∧ (∀ j : ℤ, |X - (k : ℚ)| ≤ |X - (j : ℚ)|) ∧
      (|X - (k : ℚ)| = 1 / 2 → |X| < |(k : ℚ)|) := by
  refine ⟨abs_le.2 ⟨h1, h2⟩, ?_, h3⟩
  intro j
  by_cases hjk : j = k
  · subst hjk; exact le_rfl
  · have hz : (1 : ℤ) ≤ |k - j| := by
      have hpos : (0 : ℤ) < |k - j| := abs_pos.2 (by omega)
      omega
    have hk1 : (1 : ℚ) ≤ |(k : ℚ) - (j : ℚ)| := by
      have : ((1 : ℤ) : ℚ) ≤ ((|k - j| : ℤ) : ℚ) := by exact_mod_cast hz
      rw [Int.cast_abs] at this
      push_cast at this ⊢
      linarith
    have habs : |X - (k : ℚ)| ≤ 1 / 2 := abs_le.2 ⟨h1, h2⟩
    have htri : |(k : ℚ) - (j : ℚ)| ≤ |X - (j : ℚ)| + |X - (k : ℚ)| := by
      have hkj : (k : ℚ) - j = (X - j) - (X - k) := by ring
      rw [hkj]
      exact abs_sub _ _
    linarith

theorem mathRound_spec {x : GoFloat} (hx : x.WF) :
    |x.toRat - (mathRound x : ℚ)| ≤ 1 / 2 ∧
    (∀ j : ℤ, |x.toRat - (mathRound x : ℚ)| ≤ |x.toRat - (j : ℚ)|) ∧
    (|x.toRat - (mathRound x : ℚ)| = 1 / 2 → |x.toRat| < |(mathRound x : ℚ)|) := by
  have hWFh : (GoFloat.mk 1 2).WF := by norm_num [GoFloat.WF]
  have hWF0 : (GoFloat.mk 0 1).WF := by norm_num [GoFloat.WF]
  have hhalf : (GoFloat.mk 1 2).toRat = 1 / 2 := by norm_num [GoFloat.toRat]
  have hzero : (GoFloat.mk 0 1).toRat = 0 := by norm_num [GoFloat.toRat]
  cases hb : x.blt ⟨0, 1⟩ with
  | false =>
    have hX0 : ¬ x.toRat < 0 := by
      rw [← hzero]
      intro hlt
      rw [← GoFloat.blt_iff hx hWF0] at hlt
      rw [hb] at hlt
      exact Bool.noConfusion hlt
    push_neg at hX0
    simp only [mathRound, hb, Bool.false_eq_true, if_false]
    set k := (x.add ⟨1, 2⟩).floor with hk
    have hfb := GoFloat.floor_bounds (GoFloat.WF.add hx hWFh)
    rw [GoFloat.toRat_add hx hWFh, hhalf] at hfb
    have h1 : -(1 / 2) ≤ x.toRat - (k : ℚ) := by
      have := hfb.1
      linarith
    have h2 : x.toRat - (k : ℚ) ≤ 1 / 2 := by
      have := hfb.2
      linarith
    refine round_abs_key x.toRat k h1 h2 ?_
    intro htie
    have hcase : x.toRat - (k : ℚ) = -(1 / 2) := by
      rcases abs_eq (by norm_num : (0:ℚ) ≤ 1 / 2) |>.1 htie with hcc | hcc
      · exfalso
        have := hfb.2
        linarith
      · exact hcc
    have hk1 : 1 ≤ k := by
      by_contra hle
      push_neg at hle
      have hk0 : k ≤ 0 := by omega
      have : (k : ℚ) ≤ 0 := by exact_mod_cast hk0
      linarith
    have hkq : (1 : ℚ) ≤ (k : ℚ) := by exact_mod_cast hk1
    rw [abs_of_nonneg hX0, abs_of_nonneg (by linarith : (0:ℚ) ≤ (k : ℚ))]
    linarith
  | true =>
    have hXneg : x.toRat < 0 := by
      rw [← hzero, ← GoFloat.blt_iff hx hWF0]
      exact hb
    simp only [mathRound, hb, if_true]
    have hWFn : x.neg.WF := hx
    set q := (x.neg.add ⟨1, 2⟩).floor with hq
    have hfb := GoFloat.floor_bounds (GoFloat.WF.add hWFn hWFh)
    rw [GoFloat.toRat_add hWFn hWFh, GoFloat.toRat_neg, hhalf] at hfb
    have h1 : -(1 / 2) ≤ x.toRat - ((-q : ℤ) : ℚ) := by
      have := hfb.2
      push_cast
      linarith
    have h2 : x.toRat - ((-q : ℤ) : ℚ) ≤ 1 / 2 := by
      have := hfb.1
      push_cast
      linarith
    refine round_abs_key x.toRat (-q) h1 h2 ?_
    intro htie
    have hcase : x.toRat - ((-q : ℤ) : ℚ) = 1 / 2 := by
      rcases abs_eq (by norm_num : (0:ℚ) ≤ 1 / 2) |>.1 htie with hcc | hcc
      · exact hcc
      · exfalso
        have := hfb.2
        push_cast at hcc
        linarith
    have hq1 : 1 ≤ q := by
      by_contra hle
      push_neg at hle
      have hq0 : q ≤ 0 := by omega
      have : (q : ℚ) ≤ 0 := by exact_mod_cast hq0
      push_cast at hcase
      linarith
    have hqq : (1 : ℚ) ≤ (q : ℚ) := by exact_mod_cast hq1
    rw [abs_of_neg hXneg, abs_of_neg (by push_cast; linarith : ((-q : ℤ) : ℚ) < 0)]
    push_cast at hcase ⊢
    linarith

theorem parseGoFloat_mk_digits (neg : Bool) (ip fp : List Char)
    (hip : ∀ c ∈ ip, c.isDigit = true) (hfp : ∀ c ∈ fp, c.isDigit = true)
    (hne : ip ≠ []) :
    parseGoFloat (String.mk ((if neg then ['-'] else []) ++ ip ++
        (if fp.isEmpty then [] else '.' :: fp))) =
      some ⟨(if neg then -1 else 1) *
        ((digitsToNat ip * 10 ^ fp.length + digitsToNat fp : ℕ) : ℤ), 10 ^ fp.length⟩ := by
  obtain ⟨c, t, rfl⟩ := List.exists_cons_of_ne_nil hne
  have hc : c.isDigit = true := hip c (List.mem_cons_self c t)
  have hcm : ¬ c = '-' := by intro h; subst h; exact absurd hc (by decide)
  have hcp : ¬ c = '+' := by intro h; subst h; exact absurd hc (by decide)
  have hdot : Char.isDigit '.' = false := by decide
  have htw1e : (c :: t).takeWhile Char.isDigit = c :: t := (takeWhile_all hip).1
  have hdw1e : (c :: t).dropWhile Char.isDigit = [] := (takeWhile_all hip).2
  have htw1 : (c :: (t ++ '.' :: fp)).takeWhile Char.isDigit = c :: t := by
    rw [← List.cons_append]
    exact (takeWhile_append_stop (c :: t) fp hip hdot).1
  have hdw1 : (c :: (t ++ '.' :: fp)).dropWhile Char.isDigit = '.' :: fp := by
    rw [← List.cons_append]
    exact (takeWhile_append_stop (c :: t) fp hip hdot).2
  have htw2 : fp.takeWhile Char.isDigit = fp := (takeWhile_all hfp).1
  have hdw2 : fp.dropWhile Char.isDigit = [] := (takeWhile_all hfp).2
  cases neg with
  | false =>
    cases hfpe : fp.isEmpty with
    | true =>
      have hfp0 : fp = [] := List.isEmpty_iff.1 hfpe
      subst hfp0
      simp [parseGoFloat, hcm, hcp, htw1e, hdw1e, digitsToNat]
    | false =>
      simp [parseGoFloat, hcm, hcp, htw1, hdw1, htw2, hdw2]
  | true =>
    cases hfpe : fp.isEmpty with
    | true =>
      have hfp0 : fp = [] := List.isEmpty_iff.1 hfpe
      subst hfp0
      simp [parseGoFloat, hcm, hcp, htw1e, hdw1e, digitsToNat]
    | false =>
      simp [parseGoFloat, hcm, hcp, htw1, hdw1, htw2, hdw2]

theorem padLeftZeros_natDigitsStr_length {a n : ℕ} (hn : n ≠ 0) :
    (padLeftZeros n (natDigitsStr (a % 10 ^ n))).length = n :=
  padLeftZeros_length (natDigitsStr_length_le (Nat.pos_of_ne_zero hn)
    (Nat.mod_lt _ (pow_pos (by norm_num) n)))

theorem parse_mk_digits_int (neg : Bool) (a n : ℕ) :
    parseGoFloat (String.mk ((if neg then ['-'] else []) ++ natDigitsStr (a / 10 ^ n) ++
        (if n = 0 then [] else '.' :: padLeftZeros n (natDigitsStr (a % 10 ^ n))))) =
      some ⟨(if neg then (-1 : ℤ) else 1) * (a : ℤ), 10 ^ n⟩ := by
  by_cases hn : n = 0
  · subst hn
    have h := parseGoFloat_mk_digits neg (natDigitsStr (a / 10 ^ 0)) []
      (natDigitsStr_isDigit _) (by intro c hc; cases hc) (natDigitsStr_ne_nil _)
    simp only [List.isEmpty_nil, if_true, List.append_nil, pow_zero, Nat.div_one,
      List.length_nil, natDigitsStr_val] at h ⊢
    rw [h]
    norm_num [digitsToNat]
  · have hlen : (padLeftZeros n (natDigitsStr (a % 10 ^ n))).length = n :=
      padLeftZeros_natDigitsStr_length hn
    have hfpne : (padLeftZeros n (natDigitsStr (a % 10 ^ n))).isEmpty = false := by
      cases hfp : padLeftZeros n (natDigitsStr (a % 10 ^ n)) with
      | nil => rw [hfp] at hlen; exact absurd hlen.symm hn
      | cons c t => rfl
    have h := parseGoFloat_mk_digits neg (natDigitsStr (a / 10 ^ n))
      (padLeftZeros n (natDigitsStr (a % 10 ^ n)))
      (natDigitsStr_isDigit _) (padLeftZeros_isDigit (natDigitsStr_isDigit _))
      (natDigitsStr_ne_nil _)
    rw [hfpne] at h
    simp only [Bool.false_eq_true, if_false, if_neg hn] at h ⊢
    have hda : a / 10 ^ n * 10 ^ n + a % 10 ^ n = a := by
      rw [Nat.mul_comm]
      exact Nat.div_add_mod a (10 ^ n)
    rw [h, hlen, padLeftZeros_val, natDigitsStr_val, natDigitsStr_val, hda]

theorem parseGoFloat_formatFixed {x : GoFloat} (hx : x.WF) (n : ℕ) :
    parseGoFloat (formatFixed x n) =
      some ⟨roundHalfEven (x.mul ⟨(10 : ℕ) ^ n, 1⟩), 10 ^ n⟩ := by
  have hWFp : (GoFloat.mk ((10 : ℕ) ^ n) 1).WF := by norm_num [GoFloat.WF]
  have hqWF : (x.mul ⟨(10 : ℕ) ^ n, 1⟩).WF := GoFloat.WF.mul hx hWFp
  have hpow : (GoFloat.mk ((10 : ℕ) ^ n) 1).toRat = (10 : ℚ) ^ n := by
    rw [GoFloat.toRat]
    push_cast
    norm_num
  have hqval : (x.mul ⟨(10 : ℕ) ^ n, 1⟩).toRat = x.toRat * 10 ^ n := by
    rw [GoFloat.toRat_mul, hpow]
  have hfb := GoFloat.floor_bounds hqWF
  have hmem := roundHalfEven_mem (x.mul ⟨(10 : ℕ) ^ n, 1⟩)
  have hWF0 : (GoFloat.mk 0 1).WF := by norm_num [GoFloat.WF]
  have hzero : (GoFloat.mk 0 1).toRat = 0 := by norm_num [GoFloat.toRat]
  have h := parse_mk_digits_int (x.blt ⟨0, 1⟩)
    (roundHalfEven (x.mul ⟨(10 : ℕ) ^ n, 1⟩)).natAbs n
  rw [show formatFixed x n = String.mk ((if x.blt ⟨0, 1⟩ then ['-'] else []) ++
      natDigitsStr ((roundHalfEven (x.mul ⟨(10 : ℕ) ^ n, 1⟩)).natAbs / 10 ^ n) ++
      (if n = 0 then [] else '.' :: padLeftZeros n
        (natDigitsStr ((roundHalfEven (x.mul ⟨(10 : ℕ) ^ n, 1⟩)).natAbs % 10 ^ n))))
    from rfl]
  rw [h]
  simp only [Option.some.injEq, GoFloat.mk.injEq]
  refine ⟨?_, trivial⟩
  cases hb : x.blt ⟨0, 1⟩ with
  | false =>
    have hX : ¬ x.toRat < 0 := by
      rw [← hzero, ← GoFloat.blt_iff hx hWF0]
      intro hlt
      rw [hb] at hlt
      exact Bool.noConfusion hlt
    push_neg at hX
    have hq0 : 0 ≤ (x.mul ⟨(10 : ℕ) ^ n, 1⟩).toRat := by
      rw [hqval]
      exact mul_nonneg hX (pow_nonneg (by norm_num) n)
    have hfl : (-1 : ℚ) < ((x.mul ⟨(10 : ℕ) ^ n, 1⟩).floor : ℚ) := by
      have := hfb.2
      linarith
    have hfl' : (0 : ℤ) ≤ (x.mul ⟨(10 : ℕ) ^ n, 1⟩).floor := by
      have : (-1 : ℤ) < (x.mul ⟨(10 : ℕ) ^ n, 1⟩).floor := by exact_mod_cast hfl
      omega
    have hr0 : 0 ≤ roundHalfEven (x.mul ⟨(10 : ℕ) ^ n, 1⟩) := by
      rcases hmem with hm | hm <;> omega
    simp only [Bool.false_eq_true, if_false]
    omega
  | true =>
    have hX : x.toRat < 0 := by
      rw [← hzero, ← GoFloat.blt_iff hx hWF0]
      exact hb
    have hqneg : (x.mul ⟨(10 : ℕ) ^ n, 1⟩).toRat < 0 := by
      rw [hqval]
      exact mul_neg_of_neg_of_pos hX (pow_pos (by norm_num) n)
    have hfl : ((x.mul ⟨(10 : ℕ) ^ n, 1⟩).floor : ℚ) < 0 := lt_of_le_of_lt hfb.1 hqneg
    have hfl' : (x.mul ⟨(10 : ℕ) ^ n, 1⟩).floor ≤ -1 := by
      have : (x.mul ⟨(10 : ℕ) ^ n, 1⟩).floor < 0 := by exact_mod_cast hfl
      omega
    have hr0 : roundHalfEven (x.mul ⟨(10 : ℕ) ^ n, 1⟩) ≤ 0 := by
      rcases hmem with hm | hm <;> omega
    simp only [if_true]
    omega

theorem fracDigitCount_no_dot {l : List Char} (h : ∀ c ∈ l, c ≠ '.') :
    fracDigitCount (String.mk l) = 0 := by
  have hd := (takeWhile_all (p := fun c => c ≠ '.')
    (fun c hc => decide_eq_true (h c hc))).2
  simp only [decide_not] at hd
  simp [fracDigitCount, hd]

theorem fracDigitCount_dot (l₁ l₂ : List Char) (h : ∀ c ∈ l₁, c ≠ '.') :
    fracDigitCount (String.mk (l₁ ++ '.' :: l₂)) = l₂.length := by
  have hd := (takeWhile_append_stop (p := fun c => c ≠ '.') (b := '.') l₁ l₂
    (fun c hc => decide_eq_true (h c hc)) (by decide)).2
  simp only [decide_not] at hd
  simp [fracDigitCount, hd]

theorem fracDigitCount_formatFixed (x : GoFloat) (n : ℕ) :
    fracDigitCount (formatFixed x n) = n := by
  have hsgn : ∀ c ∈ (if x.blt ⟨0, 1⟩ then ['-'] else []) ++
      natDigitsStr ((roundHalfEven (x.mul ⟨(10 : ℕ) ^ n, 1⟩)).natAbs / 10 ^ n),
      c ≠ '.' := by
    intro c hc
    rcases List.mem_append.1 hc with hc | hc
    · cases hborc : x.blt ⟨0, 1⟩ with
      | false => rw [hborc] at hc; cases hc
      | true =>
        rw [hborc] at hc
        simp only [if_true, List.mem_singleton] at hc
        subst hc
        decide
    · exact isDigit_ne_dot (natDigitsStr_isDigit _ c hc)
  by_cases hn : n = 0
  · subst hn
    rw [show formatFixed x 0 = String.mk ((if x.blt ⟨0, 1⟩ then ['-'] else []) ++
        natDigitsStr ((roundHalfEven (x.mul ⟨(10 : ℕ) ^ 0, 1⟩)).natAbs / 10 ^ 0) ++ [])
      from rfl]
    rw [List.append_nil]
    exact fracDigitCount_no_dot hsgn
  · rw [show formatFixed x n = String.mk (((if x.blt ⟨0, 1⟩ then ['-'] else []) ++
        natDigitsStr ((roundHalfEven (x.mul ⟨(10 : ℕ) ^ n, 1⟩)).natAbs / 10 ^ n)) ++
        '.' :: padLeftZeros n
          (natDigitsStr ((roundHalfEven (x.mul ⟨(10 : ℕ) ^ n, 1⟩)).natAbs % 10 ^ n)))
      from by rw [List.append_assoc]; simp [formatFixed, if_neg hn]]
    rw [fracDigitCount_dot _ _ hsgn]
    exact padLeftZeros_natDigitsStr_length hn

theorem decimalRep_val {t : GoFloat} (htW : t.WF) (hpos : 0 < t.num) {m d : ℕ}
    (h : decimalRep t = some (m, d)) : t.toRat = (m : ℚ) / 10 ^ d := by
  simp only [decimalRep] at h
  set g := Nat.gcd t.num.natAbs t.den with hgdef
  have hden0 : 0 < t.den := htW
  have hg0 : g ≠ 0 := by
    rw [hgdef]
    intro hz
    rw [Nat.gcd_eq_zero_iff] at hz
    omega
  rw [if_neg hg0] at h
  set n' := t.num.natAbs / g with hn'def
  set d' := t.den / g with hd'def
  set a := factorCount 2 d' with hadef
  set b := factorCount 5 d' with hbdef
  by_cases hdd : d' = 2 ^ a * 5 ^ b
  · rw [if_pos hdd] at h
    obtain ⟨hm, hd⟩ := Prod.mk.injEq .. ▸ Option.some.inj h
    subst hd
    have hgdvd1 : g ∣ t.num.natAbs := Nat.gcd_dvd_left _ _
    have hgdvd2 : g ∣ t.den := Nat.gcd_dvd_right _ _
    have hnum : g * n' = t.num.natAbs := Nat.mul_div_cancel' hgdvd1
    have hden : g * d' = t.den := Nat.mul_div_cancel' hgdvd2
    have hdvd : d' ∣ 10 ^ max a b := by
      rw [hdd, show (10 : ℕ) ^ max a b = 2 ^ max a b * 5 ^ max a b by
        rw [← Nat.mul_pow]]
      exact Nat.mul_dvd_mul (pow_dvd_pow 2 (le_max_left a b))
        (pow_dvd_pow 5 (le_max_right a b))
    have hmd : m * d' = n' * 10 ^ max a b := by
      rw [← hm]
      exact Nat.div_mul_cancel (Dvd.dvd.mul_left hdvd n')
    have hcross : t.num.natAbs * 10 ^ max a b = m * t.den := by
      calc t.num.natAbs * 10 ^ max a b = g * (n' * 10 ^ max a b) := by
            rw [← hnum]; ring
      _ = g * (m * d') := by rw [hmd]
      _ = m * (g * d') := by ring
      _ = m * t.den := by rw [hden]
    have hnn : ((t.num.natAbs : ℕ) : ℚ) = (t.num : ℚ) := by
      have h1 : (t.num.natAbs : ℤ) = t.num := Int.natAbs_of_nonneg (le_of_lt hpos)
      rw [← h1]
      exact (Int.cast_natCast _).symm
    have hdenq : ((t.den : ℕ) : ℚ) ≠ 0 := Nat.cast_ne_zero.2 (by omega)
    rw [GoFloat.toRat, div_eq_div_iff hdenq
      (pow_ne_zero _ (by norm_num : (10:ℚ) ≠ 0))]
    rw [← hnn]
    exact_mod_cast hcross
  · rw [if_neg hdd] at h
    exact Option.noConfusion h

theorem fracDigitCount_plainDecimal (m d : ℕ) :
    fracDigitCount (String.mk (plainDecimal m d)) = d := by
  by_cases hd : d = 0
  · subst hd
    simp only [plainDecimal, if_pos rfl]
    exact fracDigitCount_no_dot
      (fun c hc => isDigit_ne_dot (natDigitsStr_isDigit m c hc))
  · simp only [plainDecimal, if_neg hd]
    by_cases hL : (natDigitsStr m).length ≤ d
    · rw [if_pos hL]
      rw [show ('0' :: '.' :: padLeftZeros d (natDigitsStr m)) =
        ['0'] ++ '.' :: padLeftZeros d (natDigitsStr m) from rfl]
      rw [fracDigitCount_dot ['0'] _ (by intro c hc; simp at hc; subst hc; decide)]
      exact padLeftZeros_length hL
    · push_neg at hL
      rw [if_neg (not_le.2 hL)]
      rw [fracDigitCount_dot _ _ (fun c hc => isDigit_ne_dot
        (natDigitsStr_isDigit m c (List.take_subset _ _ hc)))]
      rw [List.length_drop]
      omega

theorem fracDigitCount_goFormatG {t : GoFloat} (hpos : 0 < t.num) {m d : ℕ}
    (hrep : decimalRep t = some (m, d))
    (hplain : ¬ ((((natDigitsStr m).length : Int) - d - 1) < -4 ∨
        6 ≤ (((natDigitsStr m).length : Int) - d - 1))) :
    fracDigitCount (goFormatG t) = d := by
  have h0 : ¬ t.num = 0 := by omega
  have hneg : ¬ t.num < 0 := by omega
  simp only [goFormatG, if_neg h0, hrep, if_neg hneg, if_neg hplain]
  rw [List.nil_append]
  exact fracDigitCount_plainDecimal m d

/-- C2 amended: for a tick-size string that parses to a positive value `t`
with finite decimal representation `m / 10^d` (`d` minimal) whose `%g`
rendering stays in plain (non-scientific) notation — decimal exponent in
`[-4, 6)` — and with `d = 0` whenever `1 ≤ t`, `FormatPrice price tickSize`
(1) carries exactly `d` decimal digits, (2) parses back to exactly
`round(price/t) * t`, which is (3) a multiple of `t` nearest to `price`,
with (4) an exact tie resolved away from zero; and (5) a malformed tick
size falls back to two decimal places. Outside the plain-notation regime
(e.g. tick `"0.00000001"`, rendered `1e-08`) the digit count collapses —
see the counterexample. -/
theorem formatPrice_quantizes (price : GoFloat) (tickSize : String) (t : GoFloat)
    (m d : ℕ) (hpW : price.WF) (htW : t.WF)
    (hparse : parseGoFloat tickSize = some t) (ht0 : 0 < t.toRat)
    (hrep : decimalRep t = some (m, d))
    (hplain : ¬ ((((natDigitsStr m).length : Int) - d - 1) < -4 ∨
        6 ≤ (((natDigitsStr m).length : Int) - d - 1)))
    (hint : (1 : ℚ) ≤ t.toRat → d = 0) :
    fracDigitCount (FormatPrice price tickSize) = d ∧
    (parseGoFloat (FormatPrice price tickSize)).map GoFloat.toRat =
      some ((mathRound (price.div t) : ℚ) * t.toRat) ∧
    (∀ j : ℤ, |price.toRat - (mathRound (price.div t) : ℚ) * t.toRat| ≤
        |price.toRat - (j : ℚ) * t.toRat|) ∧
    (|price.toRat - (mathRound (price.div t) : ℚ) * t.toRat| = t.toRat / 2 →
      |price.toRat| < |(mathRound (price.div t) : ℚ)| * t.toRat) ∧
    (∀ (p : GoFloat) (s : String), parseGoFloat s = none →
      FormatPrice p s = formatFixed p 2) := by
  have hdenq : (0 : ℚ) < (t.den : ℚ) := by exact_mod_cast htW
  have hnum_pos : 0 < t.num := by
    rw [GoFloat.toRat] at ht0
    have := (div_pos_iff.1 ht0)
    rcases this with ⟨h1, _⟩ | ⟨_, h2⟩
    · exact_mod_cast h1
    · exact absurd h2 (not_lt.2 (le_of_lt hdenq))
  have hnum_ne : t.num ≠ 0 := ne_of_gt hnum_pos
  have htval : t.toRat = (m : ℚ) / 10 ^ d := decimalRep_val htW hnum_pos hrep
  have hWF1 : (GoFloat.mk 1 1).WF := by norm_num [GoFloat.WF]
  have hone : (GoFloat.mk 1 1).toRat = 1 := by norm_num [GoFloat.toRat]
  have hdp : (if t.blt ⟨1, 1⟩ then fracDigitCount (goFormatG t) else 0) = d := by
    cases hb1 : t.blt ⟨1, 1⟩ with
    | true =>
      simp only [if_true]
      exact fracDigitCount_goFormatG hnum_pos hrep hplain
    | false =>
      have h1le : (1 : ℚ) ≤ t.toRat := by
        by_contra hlt
        push_neg at hlt
        rw [← hone, ← GoFloat.blt_iff htW hWF1] at hlt
        rw [hb1] at hlt
        exact Bool.noConfusion hlt
      simp only [Bool.false_eq_true, if_false]
      exact (hint h1le).symm
  have hFP : FormatPrice price tickSize =
      formatFixed (GoFloat.mul ⟨mathRound (price.div t), 1⟩ t) d := by
    simp only [FormatPrice, hparse]
    rw [hdp]
  set k := mathRound (price.div t) with hkdef
  have hkWF : (GoFloat.mk k 1).WF := by norm_num [GoFloat.WF]
  have hNWF : (GoFloat.mul ⟨k, 1⟩ t).WF := GoFloat.WF.mul hkWF htW
  have hkval : (GoFloat.mk k 1).toRat = (k : ℚ) := by
    rw [GoFloat.toRat]
    norm_num
  have hNval : (GoFloat.mul ⟨k, 1⟩ t).toRat = (k : ℚ) * t.toRat := by
    rw [GoFloat.toRat_mul, hkval]
  have hT0 : (0 : ℚ) < t.toRat := ht0
  have hXval : (price.div t).toRat = price.toRat / t.toRat :=
    GoFloat.toRat_div hpW htW hnum_ne
  have hspec := mathRound_spec (GoFloat.WF.div hpW t)
  rw [hXval, ← hkdef] at hspec
  refine ⟨?_, ?_, ?_, ?_, ?_⟩
  · rw [hFP]
    exact fracDigitCount_formatFixed _ d
  · rw [hFP, parseGoFloat_formatFixed hNWF d]
    have hz : ((GoFloat.mul ⟨k, 1⟩ t).mul ⟨(10 : ℕ) ^ d, 1⟩).toRat =
        ((k * m : ℤ) : ℚ) := by
      rw [GoFloat.toRat_mul, hNval, htval]
      have hp10 : ((10 : ℚ) ^ d) ≠ 0 := pow_ne_zero _ (by norm_num)
      have hpowval : (GoFloat.mk ((10 : ℕ) ^ d) 1).toRat = (10 : ℚ) ^ d := by
        rw [GoFloat.toRat]
        push_cast
        norm_num
      rw [hpowval]
      push_cast
      field_simp
    rw [roundHalfEven_intV (GoFloat.WF.mul hNWF (by norm_num [GoFloat.WF])) hz]
    rw [show (some (GoFloat.mk (k * m : ℤ) (10 ^ d))).map GoFloat.toRat =
      some ((GoFloat.mk (k * m : ℤ) (10 ^ d)).toRat) from rfl]
    congr 1
    rw [GoFloat.toRat, htval]
    push_cast
    have hp10 : ((10 : ℚ) ^ d) ≠ 0 := pow_ne_zero _ (by norm_num)
    field_simp
  · intro j
    have hj := hspec.2.1 j
    have hident : ∀ z : ℚ, price.toRat - z * t.toRat =
        (price.toRat / t.toRat - z) * t.toRat := by
      intro z
      field_simp
      ring
    rw [hident, hident, abs_mul, abs_mul, abs_of_pos hT0]
    exact mul_le_mul_of_nonneg_right hj (le_of_lt hT0)
  · intro htie
    have hident : price.toRat - (k : ℚ) * t.toRat =
        (price.toRat / t.toRat - k) * t.toRat := by
      field_simp
      ring
    rw [hident, abs_mul, abs_of_pos hT0] at htie
    have htie' : |price.toRat / t.toRat - (k : ℚ)| = 1 / 2 := by
      have h3 : |price.toRat / t.toRat - (k : ℚ)| * t.toRat =
          (1 / 2) * t.toRat := by
        rw [htie]
        ring
      exact mul_right_cancel₀ (ne_of_gt hT0) h3
    have hlt := hspec.2.2 htie'
    rw [abs_div, abs_of_pos hT0] at hlt
    have h4 : |price.toRat| / t.toRat * t.toRat = |price.toRat| :=
      div_mul_cancel₀ _ (ne_of_gt hT0)
    calc |price.toRat| = |price.toRat| / t.toRat * t.toRat := h4.symm
    _ < |(k : ℚ)| * t.toRat := mul_lt_mul_of_pos_right hlt hT0
  · intro p s hnone
    simp [FormatPrice, hnone]

/-- C2 witness: price 123.456 with tick `"0.01"` (the repository's own test
vector, formatted `"123.46"`) satisfies the amended statement's hypotheses,
and the output indeed carries 2 decimal digits. -/
theorem formatPrice_quantizes_witness :
    0 < (GoFloat.mk 1 100).toRat ∧
    fracDigitCount (FormatPrice ⟨123456, 1000⟩ "0.01") = 2 := by
  constructor
  · norm_num [GoFloat.toRat]
  · exact (formatPrice_quantizes ⟨123456, 1000⟩ "0.01" ⟨1, 100⟩ 1 2
      (by norm_num [GoFloat.WF]) (by norm_num [GoFloat.WF]) (by decide)
      (by norm_num [GoFloat.toRat])
      (by decide) (by decide)
      (by intro h; norm_num [GoFloat.toRat] at h)).1

/-- C2 counterexample: the repository's own test vector
`FormatPrice(0.12345678, "0.00000001") = "0"`. The tick parses to `1e-8`,
whose `%g` rendering `"1e-08"` contains no `'.'`, so the computed decimal
count is 0 — not the 8 digits the claim requires — and the printed value 0
is not the nearest multiple of the tick: the price itself is exactly the
multiple `12345678 * 1e-8` and `0 < price`. -/
theorem formatPrice_small_tick_digit_collapse :
    parseGoFloat "0.00000001" = some ⟨1, 100000000⟩ ∧
    FormatPrice ⟨12345678, 100000000⟩ "0.00000001" = "0" ∧
    fracDigitCount "0.00000001" = 8 ∧
    fracDigitCount (FormatPrice ⟨12345678, 100000000⟩ "0.00000001") = 0 ∧
    GoFloat.mul ⟨12345678, 1⟩ ⟨1, 100000000⟩ = ⟨12345678, 100000000⟩ ∧
    parseGoFloat (FormatPrice ⟨12345678, 100000000⟩ "0.00000001") = some ⟨0, 1⟩ ∧
    GoFloat.blt ⟨0, 1⟩ ⟨12345678, 100000000⟩ = true := by
  decide

end BinanceTrader
